import Mathlib

/-!
Verification of the staticmodel library core (staticmodel/core.py).

The development shallowly embeds the member-registration pipeline and the
index-backed query resolver of `StaticModelMeta`, `StaticModelMemberManager`,
`StaticModel` and `StaticModelMembers`.  Python objects are modelled
explicitly:

* attribute values are a closed inductive `Value` covering the value shapes
  the library manipulates (None, bool, int, str, tuple, list);
* a member instance is a `Member` record: its Python `id()`, its owning class
  (`__class__`, which never changes after creation), its `_member_name`,
  `_raw_value`, and its instance dict of zipped field values;
* a model class is a `Model` record holding the state the metaclass keeps on
  each class object (`_members.by_id`, `_members.by_member_name`, `_indexes`,
  `_submodels`, the resolved `_field_names`, and the base-class link);
* the mutable world of class objects is a `Registry` (name-keyed ordered map
  of models plus the `id()` counter); every mutating operation threads it.

Python dicts and OrderedDicts are association lists with replace-in-place
update; `is` identity is `id` equality; exceptions are an explicit `PyErr`
sum threaded through `Except`.  CPython's seeded string hash and `repr` are
replaced by fixed executable stand-ins with the same structure (hash first,
`repr`-based key as the unhashable fallback); the code only relies on the key
function being a fixed function of the value, not on particular hash values.
-/

namespace StaticModelCore

/-- Python attribute values manipulated by the library: None, bools, ints,
strings, tuples and lists. -/
inductive Value where
  | vnone : Value
  | vbool : Bool → Value
  | vint : Int → Value
  | vstr : String → Value
  | vtuple : List Value → Value
  | vlist : List Value → Value
deriving Repr

mutual

/-- Structural decidable equality test for `Value` (used only to derive
`DecidableEq`; Python `==` is the separate `pyEq`). -/
def Value.beqV : Value → Value → Bool
  | .vnone, .vnone => true
  | .vbool a, .vbool b => a == b
  | .vint a, .vint b => a == b
  | .vstr a, .vstr b => a == b
  | .vtuple a, .vtuple b => Value.beqVList a b
  | .vlist a, .vlist b => Value.beqVList a b
  | _, _ => false

/-- Elementwise `Value.beqV` on lists. -/
def Value.beqVList : List Value → List Value → Bool
  | [], [] => true
  | a :: as', b :: bs' => Value.beqV a b && Value.beqVList as' bs'
  | _, _ => false

end

mutual

theorem Value.beqV_eq : ∀ a b : Value, Value.beqV a b = true → a = b
  | .vnone, .vnone, _ => rfl
  | .vbool a, .vbool b, h => by
      simp only [Value.beqV, beq_iff_eq] at h; rw [h]
  | .vint a, .vint b, h => by
      simp only [Value.beqV, beq_iff_eq] at h; rw [h]
  | .vstr a, .vstr b, h => by
      simp only [Value.beqV, beq_iff_eq] at h; rw [h]
  | .vtuple a, .vtuple b, h => by
      rw [Value.beqVList_eq a b h]
  | .vlist a, .vlist b, h => by
      rw [Value.beqVList_eq a b h]

theorem Value.beqVList_eq : ∀ a b : List Value, Value.beqVList a b = true → a = b
  | [], [], _ => rfl
  | a :: as', b :: bs', h => by
      simp only [Value.beqVList, Bool.and_eq_true] at h
      rw [Value.beqV_eq a b h.1, Value.beqVList_eq as' bs' h.2]

end

mutual

theorem Value.beqV_rfl : ∀ a : Value, Value.beqV a a = true
  | .vnone => rfl
  | .vbool a => by simp [Value.beqV]
  | .vint a => by simp [Value.beqV]
  | .vstr a => by simp [Value.beqV]
  | .vtuple a => Value.beqVList_rfl a
  | .vlist a => Value.beqVList_rfl a

theorem Value.beqVList_rfl : ∀ a : List Value, Value.beqVList a a = true
  | [] => rfl
  | a :: as' => by
      simp only [Value.beqVList, Bool.and_eq_true]
      exact ⟨Value.beqV_rfl a, Value.beqVList_rfl as'⟩

end

instance : DecidableEq Value := fun a b =>
  if h : Value.beqV a b = true then
    .isTrue (Value.beqV_eq a b h)
  else
    .isFalse (fun he => h (he ▸ Value.beqV_rfl a))

mutual

/-- Python `==` on `Value`s: bools compare equal to the ints 0/1 (as in
Python), tuples and lists compare elementwise within their own kind, and
values of different kinds are unequal.  Python `!=` on these built-in types
is the boolean negation. -/
def pyEq : Value → Value → Bool
  | .vnone, .vnone => true
  | .vbool a, .vbool b => a == b
  | .vbool a, .vint n => (if a then (1 : Int) else 0) == n
  | .vint n, .vbool a => n == (if a then (1 : Int) else 0)
  | .vint a, .vint b => a == b
  | .vstr a, .vstr b => a == b
  | .vtuple a, .vtuple b => pyEqList a b
  | .vlist a, .vlist b => pyEqList a b
  | _, _ => false

/-- Elementwise Python `==` on sequences of equal length. -/
def pyEqList : List Value → List Value → Bool
  | [], [] => true
  | a :: as', b :: bs' => pyEq a b && pyEqList as' bs'
  | _, _ => false

end

mutual

theorem pyEq_refl : ∀ a : Value, pyEq a a = true
  | .vnone => rfl
  | .vbool a => by simp [pyEq]
  | .vint a => by simp [pyEq]
  | .vstr a => by simp [pyEq]
  | .vtuple a => pyEqList_refl a
  | .vlist a => pyEqList_refl a

theorem pyEqList_refl : ∀ a : List Value, pyEqList a a = true
  | [] => rfl
  | a :: as' => by
      simp only [pyEqList, Bool.and_eq_true]
      exact ⟨pyEq_refl a, pyEqList_refl as'⟩

end

/-- Python truthiness of a `Value` (`bool(v)`). -/
def pyTruthy : Value → Bool
  | .vnone => false
  | .vbool b => b
  | .vint n => n != 0
  | .vstr s => s != ""
  | .vtuple vs => !vs.isEmpty
  | .vlist vs => !vs.isEmpty

/-- Python `str.upper` for the ASCII identifier names class bodies use. -/
def str_upper (s : String) : String := String.mk (s.data.map Char.toUpper)

/-- Python `str.startswith(\x27_\x27)`. -/
def starts_underscore (s : String) : Bool := s.data.head? = some '_'

/-- A fixed stand-in for CPython's string hash (the library only relies on
the hash being a fixed function of the value within one process). -/
def strHash (s : String) : Int :=
  s.data.foldl (fun acc c => acc * 31 + Int.ofNat c.toNat) 7

mutual

/-- Python `repr` of a `Value`, abstracted: a fixed injective-by-shape
rendering used only to build the fallback index key for unhashable values. -/
def reprV : Value → String
  | .vnone => "None"
  | .vbool b => if b then "True" else "False"
  | .vint n => toString n
  | .vstr s => "\x27" ++ s ++ "\x27"
  | .vtuple vs => "(" ++ String.intercalate ", " (reprVList vs) ++ ")"
  | .vlist vs => "[" ++ String.intercalate ", " (reprVList vs) ++ "]"

/-- `reprV` mapped over a list of values. -/
def reprVList : List Value → List String
  | [] => []
  | v :: vs => reprV v :: reprVList vs

end

mutual

/-- Python `hash(v)` for the modelled value shapes: `none` means the value
is unhashable (`hash` raises TypeError), which holds exactly for lists and
for tuples containing an unhashable element. -/
def pyHash : Value → Option Int
  | .vnone => some 5740354900026072187
  | .vbool b => some (if b then 1 else 0)
  | .vint n => some n
  | .vstr s => some (strHash s)
  | .vtuple vs => (pyHashList vs).map (fun hs => hs.foldl (fun acc h => acc * 1000003 + h) 5381)
  | .vlist _ => none

/-- `pyHash` over every element of a list; `none` if any element is
unhashable. -/
def pyHashList : List Value → Option (List Int)
  | [] => some []
  | v :: vs =>
      match pyHash v with
      | none => none
      | some h => (pyHashList vs).map (fun hs => h :: hs)

end

/-- Whether `hash(v)` succeeds (i.e. `v` may be used as a dict key). -/
def hashable (v : Value) : Bool := (pyHash v).isSome

/-- StaticModelMeta._index_key_for_value: try `hash(value)`; on TypeError
fall back to `hash(repr(value))`. -/
def index_key_for_value (value : Value) : Int :=
  match pyHash value with
  | some h => h
  | none => strHash (reprV value)

/-- AttrName.INSTANCE.MEMBER_NAME. -/
def member_name_attr : String := "_member_name"

/-- AttrName.INSTANCE.RAW_VALUE. -/
def raw_value_attr : String := "_raw_value"

/-- A member instance: its Python `id()`, its owning class name
(`__class__.__name__`, fixed at creation and never rewritten by
propagation), its `_member_name` and `_raw_value` instance attributes, and
the zipped field-name/field-value pairs of its instance dict. -/
structure Member where
  id : Nat
  cls : String
  member_name : Option String
  raw_value : Value
  fields : List (String × Value)
deriving DecidableEq, Repr

/-- Instance attribute lookup `getattr(member, name)` restricted to the
attributes the instance dict carries: the special `_member_name` and
`_raw_value` slots (always assigned by the pipeline, possibly to None) and
the zipped field values.  `none` is Python's AttributeError. -/
def getattrM (m : Member) (f : String) : Option Value :=
  if f = raw_value_attr then some m.raw_value
  else if f = member_name_attr then
    some (match m.member_name with
          | some n => .vstr n
          | none => .vnone)
  else (m.fields.find? (fun p => p.1 = f)).map (fun p => p.2)

/-- Association-list lookup (Python dict read). -/
def dlookup {κ β : Type} [DecidableEq κ] : List (κ × β) → κ → Option β
  | [], _ => none
  | (k', v) :: rest, k => if k' = k then some v else dlookup rest k

/-- Python dict write `d[k] = v`: replace the key's binding in place
(keeping its position, as dict and OrderedDict both do), else append.
Dicts hold one binding per key, so replacing the first match is exact. -/
def dinsert {κ β : Type} [DecidableEq κ] : List (κ × β) → κ → β → List (κ × β)
  | [], k, v => [(k, v)]
  | (k', v') :: rest, k, v =>
      if k' = k then (k, v) :: rest else (k', v') :: dinsert rest k v

/-- `dlookup` at `Int` keys (index buckets). -/
def ilookup {β : Type} (d : List (Int × β)) (k : Int) : Option β := dlookup d k

/-- `dinsert` at `Int` keys. -/
def iinsert {β : Type} (d : List (Int × β)) (k : Int) (v : β) :
    List (Int × β) := dinsert d k v

/-- `dinsert` at `Nat` keys (`_members.by_id` is keyed by `id()`). -/
def ninsert {β : Type} (d : List (Nat × β)) (k : Nat) (v : β) :
    List (Nat × β) := dinsert d k v

/-- The per-class state StaticModelMeta keeps on a model class object:
`__name__`, the base-class link (`none` for direct subclasses of the root
`StaticModel`, which propagation skips), the resolved `_field_names`
(resolution over the MRO is performed once at definition time since the
attribute never changes afterwards), `_members.by_id`,
`_members.by_member_name`, `_indexes` and `_submodels`. -/
structure Model where
  name : String
  base : Option String
  field_names : List String
  by_id : List (Nat × Member)
  by_member_name : List (String × Member)
  indexes : List (String × List (Int × List Member))
  submodels : List String
deriving DecidableEq, Repr

/-- The world of class objects: a name-keyed ordered map of models plus the
`id()` allocator for fresh member instances. -/
structure Registry where
  models : List (String × Model)
  next_id : Nat
deriving DecidableEq, Repr

/-- Look a model up by class name. -/
def lookupModel (reg : Registry) (n : String) : Option Model :=
  dlookup reg.models n

/-- Replace (or add) a model under its name. -/
def updateModel (reg : Registry) (n : String) (m : Model) : Registry :=
  { reg with models := dinsert reg.models n m }

/-- Python exceptions surfaced by the embedded code. -/
inductive PyErr where
  | typeError : String → PyErr
  | valueError : String → PyErr
  | attributeError : String → PyErr
  | invalidField : String → PyErr
  | doesNotExist : String → PyErr
  | multipleObjectsReturned : String → PyErr
deriving DecidableEq, Repr

instance exceptDecEq {ε α : Type} [DecidableEq ε] [DecidableEq α] :
    DecidableEq (Except ε α) := fun x y =>
  match x, y with
  | .ok a, .ok b =>
      if h : a = b then .isTrue (by rw [h]) else .isFalse (by simp [h])
  | .error a, .error b =>
      if h : a = b then .isTrue (by rw [h]) else .isFalse (by simp [h])
  | .ok _, .error _ => .isFalse (by simp)
  | .error _, .ok _ => .isFalse (by simp)

/-- A class-body entry for an uppercase name: either a literal declaration
(`Decl.raw`, the tuple/scalar branch of `StaticModelMeta.__setattr__`) or an
already-built member instance (`Decl.mem`, the
`isinstance(value.__class__, cls.__class__)` branch, used by propagation
and by cross-collection reassignment). -/
inductive Decl where
  | raw : Value → Decl
  | mem : Member → Decl
deriving DecidableEq, Repr

/-- Whether `isinstance(v, Iterable)` holds for the modelled shapes. -/
def isIterable : Value → Bool
  | .vstr _ => true
  | .vtuple _ => true
  | .vlist _ => true
  | _ => false

/-- Whether `isinstance(v, str)`. -/
def isStr : Value → Bool
  | .vstr _ => true
  | _ => false

/-- The element sequence of an iterable value. -/
def elemsOf : Value → List Value
  | .vtuple vs => vs
  | .vlist vs => vs
  | _ => []

/-- `dict(zip(field_names, field_values))`: zip truncates at the shorter
sequence, then dict construction keeps the last value for a repeated key. -/
def zipDict (field_names : List String) (field_values : List Value) :
    List (String × Value) :=
  (field_names.zip field_values).foldl (fun d p => dinsert d p.1 p.2) []

/-- One attribute of `_index_instance`: `setdefault` the per-attribute
index (it runs before the attribute read, so the index is created even when
the member lacks the attribute), then append the member to the bucket at
its value's key. -/
def index_step (inst : Member) (md : Model) (attr : String) : Model :=
  let index := (dlookup md.indexes attr).getD []
  let md' := { md with indexes := dinsert md.indexes attr index }
  match getattrM inst attr with
  | none => md'
  | some value =>
      let key := index_key_for_value value
      let bucket := (ilookup index key).getD []
      { md' with
        indexes := dinsert md'.indexes attr
          (iinsert index key (bucket ++ [inst])) }

/-- StaticModelMeta._index_instance: run `index_step` for `_raw_value` and
every field name. -/
def index_instance (model : Model) (inst : Member) : Model :=
  (raw_value_attr :: model.field_names).foldl (index_step inst) model

/-- The rename check of `_process_new_instance`: under Python truthiness
the names clash only when both are non-empty strings and differ. -/
def pni_clash : Option String → Option String → Bool
  | some a, some b => a != "" && b != "" && a != b
  | _, _ => false

/-- The `by_member_name` update of `_process_new_instance`: only named
instances are recorded (`if member_name is not None`). -/
def pni_byname (md : Model) (mn : Option String) (inst' : Member) :
    List (String × Member) :=
  match mn with
  | some k => dinsert md.by_member_name k inst'
  | none => md.by_member_name

/-- The model-state update of `_process_new_instance`: record the instance
in `_members.by_id` keyed by its `id()`, record it under its name, and
index it. -/
def pni_register (md : Model) (mn : Option String) (inst' : Member) : Model :=
  index_instance
    { md with by_id := ninsert md.by_id inst'.id inst',
              by_member_name := pni_byname md mn inst' } inst'

/-- StaticModelMeta._process_new_instance: reject renaming an already-named
member, assign `_member_name`, then register and index the instance. -/
def process_new_instance (reg : Registry) (clsName : String)
    (memberName : Option String) (inst : Member) :
    Except PyErr (Registry × Member) :=
  match lookupModel reg clsName with
  | none => .error (.attributeError "model not found")
  | some model =>
    if pni_clash inst.member_name memberName then
      .error (.valueError ("Member <" ++ inst.cls
        ++ "> already has a member name"))
    else
      let inst' := { inst with member_name := memberName }
      .ok (updateModel reg clsName (pni_register model memberName inst'), inst')

/-- StaticModelMeta.__call__ as invoked by the class-body path
(`cls(raw_value=value, member_name=key)`; the positional field-value
parameters are unused there): check the member name is uppercase, unpack an
iterable non-string truthy raw value into field values, require a non-empty
resolved `_field_names`, build the instance dict with
`dict(zip(field_names, field_values))` (zip silently truncates on an arity
mismatch), stamp `_raw_value`, and register the instance. -/
def callModel (reg : Registry) (clsName : String) (rawValue : Value)
    (memberName : String) : Except PyErr (Registry × Member) :=
  if str_upper memberName != memberName then
    .error (.valueError "Value for \x27member_name\x27 parameter must be all uppercase.")
  else
    match lookupModel reg clsName with
    | none => .error (.attributeError "model not found")
    | some model =>
      let fieldValues : List Value :=
        if pyTruthy rawValue && isIterable rawValue && !isStr rawValue then
          elemsOf rawValue
        else []
      if model.field_names.isEmpty then
        .error (.valueError "At lease one field must be defined")
      else
        let inst : Member :=
          { id := reg.next_id, cls := clsName, member_name := none,
            raw_value := rawValue,
            fields := zipDict model.field_names fieldValues }
        process_new_instance { reg with next_id := reg.next_id + 1 }
          clsName (some memberName) inst

/-- A short rendering of a member for the duplicate-attribute TypeError
message (the exact repr text is immaterial to the verified properties). -/
def reprMemberShort (m : Member) : String :=
  "<" ++ m.cls ++ "." ++ (match m.member_name with
                          | some n => n
                          | none => "None") ++ ">"

/-- StaticModelMeta.__setattr__ for an uppercase, non-underscore key: fail
with TypeError when the class's own dict already has the attribute
(`__getattribute__` looks only in `cls.__dict__`, which for uppercase names
coincides with `_members.by_member_name`), otherwise register the value —
directly when it is already a member instance, else through `__call__`. -/
def setattr_upper (reg : Registry) (clsName : String) (key : String)
    (d : Decl) : Except PyErr Registry :=
  match lookupModel reg clsName with
  | none => .error (.attributeError "model not found")
  | some model =>
    match dlookup model.by_member_name key with
    | some existing =>
        .error (.typeError (clsName ++ "." ++ key ++ " already exists with value "
          ++ reprMemberShort existing))
    | none =>
      match d with
      | .mem inst =>
          (process_new_instance reg clsName (some key) inst).map (fun p => p.1)
      | .raw v => (callModel reg clsName v key).map (fun p => p.1)

/-- The class-body namespace dict: later assignments to the same name
replace the earlier value in place (Python dict update semantics — this is
what the metaclass `__new__` receives, so a duplicate uppercase declaration
has already collapsed to its last value before member extraction runs). -/
def class_attrs (body : List (String × Decl)) : List (String × Decl) :=
  body.foldl (fun d p => dinsert d p.1 p.2) []

/-- The uppercase, non-underscore entries extracted by
`StaticModelMeta.__new__` into `__raw_members`, in namespace order. -/
def raw_members_of (body : List (String × Decl)) : List (String × Decl) :=
  (class_attrs body).filter (fun p => !(starts_underscore p.1) && str_upper p.1 == p.1)

/-- The chain of ancestor collections of a model, nearest first, as walked
by `_populate_ancestors`: follow the base link while the base is itself a
registered model, stopping at the root `StaticModel` (base `none`).  The
walk in the source recurses over `__bases__`, which propagation never
mutates, so the chain may be computed up front; the fuel bounds the walk by
the registry size, which covers every acyclic chain (Python base-class
graphs are always acyclic). -/
def base_chain_aux : Nat → Registry → Option String → List String
  | 0, _, _ => []
  | _, _, none => []
  | fuel + 1, reg, some b =>
      match lookupModel reg b with
      | none => []
      | some mb => b :: base_chain_aux fuel reg mb.base

/-- The ancestor chain of a named model. -/
def base_chain (reg : Registry) (n : String) : List String :=
  match lookupModel reg n with
  | none => []
  | some m => base_chain_aux reg.models.length reg m.base

/-- One step of `_populate_ancestors`: re-attach every named member of
`cls._members.by_id` onto the ancestor `parent` (through `setattr`, hence
through `_process_new_instance`), then `parent.register_submodel(cls)`. -/
def propagate_to (reg : Registry) (clsName parent : String) :
    Except PyErr Registry := do
  let members : List Member := match lookupModel reg clsName with
                 | some m => m.by_id.map (fun p => p.2)
                 | none => []
  let reg' ← members.foldlM (fun (r : Registry) (mem : Member) =>
      match mem.member_name with
      | some mn => setattr_upper r parent mn (.mem mem)
      | none => pure r) reg
  match lookupModel reg' parent with
  | none => pure reg'
  | some pm =>
      pure (updateModel reg' parent
        { pm with submodels :=
            if pm.submodels.contains clsName then pm.submodels
            else pm.submodels ++ [clsName] })

/-- StaticModelMeta._populate_ancestors: push the newly defined model's
members into every ancestor up the chain (the source recursion always
re-reads `cls._members.by_id`, the member set of the newly defined class,
at every level). -/
def populate_ancestors (reg : Registry) (clsName : String) :
    Except PyErr Registry :=
  (base_chain reg clsName).foldlM (fun r p => propagate_to r clsName p) reg

/-- The `_field_names` resolution at class creation: the class body's own
declaration, else the nearest ancestor's (`getattr` over the MRO; the
attribute never changes after definition, so one-time resolution is
exact). -/
def resolve_field_names (reg : Registry) (base : Option String)
    (own : Option (List String)) : List String :=
  match own with
  | some fns => fns
  | none =>
      match base with
      | some b =>
          match lookupModel reg b with
          | some mb => mb.field_names
          | none => []
      | none => []

/-- The model state of a freshly created collection class, before any
member is attached. -/
def initial_model (name : String) (base : Option String)
    (fns : List String) : Model :=
  { name := name, base := base, field_names := fns, by_id := [],
    by_member_name := [], indexes := [], submodels := [] }

/-- The complete class-construction pipeline for one collection
(`__prepare__`/`__new__`/`__init__` of StaticModelMeta): collapse the class
body into a namespace dict, extract the uppercase declarations, resolve
`_field_names`, create the empty model, attach every extracted declaration
through `__setattr__`, then run `_populate_ancestors`. -/
def define_model (reg : Registry) (name : String) (base : Option String)
    (own_field_names : Option (List String)) (body : List (String × Decl)) :
    Except PyErr Registry := do
  let reg1 := updateModel reg name
    (initial_model name base (resolve_field_names reg base own_field_names))
  let reg2 ← (raw_members_of body).foldlM
    (fun (r : Registry) (p : String × Decl) =>
      setattr_upper r name p.1 p.2) reg1
  populate_ancestors reg2 name

/-- The uppercase arm of `StaticModelMeta.__getattribute__`: resolve the
name in the class's own dict only, never through ordinary inheritance;
a miss is an AttributeError naming the model and the member. -/
def class_getattr_upper (model : Model) (item : String) :
    Except PyErr Member :=
  match dlookup model.by_member_name item with
  | some m => .ok m
  | none =>
      .error (.attributeError ("\x27" ++ model.name
        ++ "\x27 model does not contain member \x27" ++ item ++ "\x27"))

/-- `members.all()`: the values of `_members.by_id` in insertion order. -/
def all_members (model : Model) : List Member :=
  model.by_id.map (fun p => p.2)

/-- The stable sort in `_get_index_search_results`: criteria entries whose
key is `_member_name` first, everything else in original order. -/
def sorted_criteria (criteria : List (String × Value)) : List (String × Value) :=
  let p := criteria.partition (fun x => x.1 = member_name_attr)
  p.1 ++ p.2

/-- The outcome of one loop iteration of the `_get_index_search_results`
generator for one criterion. -/
inductive ProbeStep where
  | stop : ProbeStep
  | yield1 : Member → ProbeStep
  | yieldMany : List Member → ProbeStep
  | skip : ProbeStep
  | fail : PyErr → ProbeStep
deriving DecidableEq, Repr

/-- One criterion of `_get_index_search_results`: a `_member_name` criterion
probes `by_member_name` (TypeError for an unhashable key; a miss raises
StopIteration, ending the generator); any other criterion probes its value
index and yields the matching bucket, is skipped when the field is merely a
declared field with no index, and raises InvalidField when the field is
neither indexed nor declared. -/
def probe_step (model : Model) (f : String) (v : Value) : ProbeStep :=
  if f = member_name_attr then
    if hashable v then
      match v with
      | .vstr s =>
          match dlookup model.by_member_name s with
          | some mem => .yield1 mem
          | none => .stop
      | _ => .stop
    else .fail (.typeError "unhashable type")
  else
    match dlookup model.indexes f with
    | none =>
        if model.field_names.contains f then .skip
        else .fail (.invalidField ("Invalid field \x27" ++ f ++ "\x27"))
    | some index => .yieldMany ((ilookup index (index_key_for_value v)).getD [])

/-- The `_get_index_search_results` generator body, fully drained as
`filter` drains it: process each criterion in sorted order, accumulating
yielded members; `stop` (StopIteration) ends the generation with the
members yielded so far, a raised error propagates. -/
def probe_aux (model : Model) :
    List (String × Value) → List Member → Except PyErr (List Member)
  | [], acc => .ok acc
  | (f, v) :: rest, acc =>
      match probe_step model f v with
      | .stop => .ok acc
      | .yield1 m => probe_aux model rest (acc ++ [m])
      | .yieldMany ms => probe_aux model rest (acc ++ ms)
      | .skip => probe_aux model rest acc
      | .fail e => .error e

/-- StaticModelMeta._get_index_search_results, drained eagerly. -/
def get_index_search_results (model : Model)
    (criteria : List (String × Value)) : Except PyErr (List Member) :=
  probe_aux model (sorted_criteria criteria) []

/-- The verification loop body of `StaticModelMemberManager.filter` for one
surfaced member: every criterion must either hit the `_member_name`
fast-path identity check (`by_member_name.get(value) is member`) or compare
equal (`!=` is negated `==`) to the member's attribute; a missing attribute
(AttributeError) rejects the member. -/
def verify_member (model : Model) (criteria : List (String × Value))
    (mem : Member) : Bool :=
  criteria.all (fun p =>
    (decide (p.1 = member_name_attr) &&
      (match p.2 with
       | .vstr s =>
           match dlookup model.by_member_name s with
           | some m2 => decide (m2.id = mem.id)
           | none => false
       | _ => false))
    || (match getattrM mem p.1 with
        | none => false
        | some w => pyEq w p.2))

/-- The `validated_member_ids` de-duplication of `filter`: keep the first
occurrence of each member identity. -/
def dedupe_by_id : List Member → List Nat → List Member
  | [], _ => []
  | m :: rest, seen =>
      if m.id ∈ seen then dedupe_by_id rest seen
      else m :: dedupe_by_id rest (m.id :: seen)

/-- StaticModelMemberManager.filter: empty criteria return `all()`;
otherwise drain the index search, keep the members that verify against
every criterion, and de-duplicate by identity preserving first-seen
order. -/
def filter (model : Model) (criteria : List (String × Value)) :
    Except PyErr (List Member) :=
  if criteria.isEmpty then .ok (all_members model)
  else
    match get_index_search_results model criteria with
    | .error e => .error e
    | .ok surfaced =>
        .ok (dedupe_by_id (surfaced.filter (verify_member model criteria)) [])

/-- util.format_kwargs: render criteria as comma-separated repr pairs. -/
def format_kwargs (kwargs : List (String × Value)) : String :=
  String.intercalate ", " (kwargs.map (fun p => p.1 ++ "=" ++ reprV p.2))

/-- StaticModelMemberManager.get: delegate to `filter`; an empty result is
DoesNotExist (or `none` when `_return_none` was passed), a singleton is
returned, anything longer is MultipleObjectsReturned; both error messages
carry the collection name and the rendered criteria. -/
def get (model : Model) (return_none : Bool)
    (criteria : List (String × Value)) : Except PyErr (Option Member) :=
  match filter model criteria with
  | .error e => .error e
  | .ok results =>
    match results with
    | [] =>
        if return_none then .ok none
        else .error (.doesNotExist (model.name ++ ".members.get("
          ++ format_kwargs criteria ++ ") yielded no objects."))
    | [m] => .ok (some m)
    | _ :: _ :: _ =>
        .error (.multipleObjectsReturned (model.name ++ ".members.get("
          ++ format_kwargs criteria ++ ") yielded multiple objects."))

/-- StaticModel._as_dict: the member's own collection's `_field_names`
(instance attribute lookup resolves `_field_names` on the owning class),
each mapped through `getattr(self, field_name, None)`. -/
def as_dict (reg : Registry) (m : Member) : List (String × Value) :=
  let fns := match lookupModel reg m.cls with
             | some md => md.field_names
             | none => []
  fns.map (fun fn => (fn, (getattrM m fn).getD .vnone))

/-- Python `dict.pop(key, None)`: remove and return the first binding of
the key. -/
def dict_pop : List (String × Value) → String → Option Value × List (String × Value)
  | [], _ => (none, [])
  | (k, v) :: rest, key =>
      if k = key then (some v, rest)
      else
        let r := dict_pop rest key
        (r.1, (k, v) :: r.2)

/-- The OrderedDict comprehension of `StaticModelMembers._values_item`:
`(key, item_dict.pop(key, None))` for each requested field, with dict
insertion semantics for the row being built. -/
def values_item_aux : List String → List (String × Value) →
    List (String × Value) → List (String × Value)
  | [], _, acc => acc
  | f :: rest, d, acc =>
      let r := dict_pop d f
      values_item_aux rest r.2 (dinsert acc f (r.1.getD .vnone))

/-- StaticModelMembers._values_item: project one member's `_as_dict` onto
the requested field names, popping each and defaulting to None. -/
def values_item (reg : Registry) (m : Member) (field_names : List String) :
    List (String × Value) :=
  values_item_aux field_names (as_dict reg m) []

/-- StaticModelMembers._values_list_item: one tuple slot per requested
field, `getattr(item, field_name, None)`. -/
def values_list_item (m : Member) (field_names : List String) : List Value :=
  field_names.map (fun f => (getattrM m f).getD .vnone)

/-- The field names accepted by `_values_base`: `_member_name` (listed
twice, as in the source), the model's member-relevant class-dict names
(its attached member names) and field names, and the same for every
registered submodel.  (The source set also contains the class-dict
plumbing names — methods, the manager, `_field_names` — which are never
member fields; they are immaterial to the verified properties and
elided.) -/
def available_field_names (reg : Registry) (model : Model) : List String :=
  [member_name_attr, member_name_attr]
  ++ (model.by_member_name.map (fun p => p.1) ++ model.field_names)
  ++ (model.submodels.flatMap (fun sn =>
        match lookupModel reg sn with
        | some sm => sm.by_member_name.map (fun p => p.1) ++ sm.field_names
        | none => []))

/-- The field-name resolution and validation of `_values_base`: no names
means the model's `_field_names`; otherwise the requested names must be a
subset of those available. -/
def resolve_projection_fields (reg : Registry) (model : Model)
    (field_names : List String) : Except PyErr (List String) :=
  if field_names.isEmpty then .ok model.field_names
  else if field_names.all (fun f => (available_field_names reg model).contains f) then
    .ok field_names
  else .error (.valueError "Field names must be a subset of those available.")

/-- StaticModelMembers.values (allow_flat is False for this partial
application, so the flat kwarg never changes the shape): one row per
member whose rendered OrderedDict is truthy (non-empty). -/
def values (reg : Registry) (model : Model) (members : List Member)
    (field_names : List String) :
    Except PyErr (List (List (String × Value))) :=
  match resolve_projection_fields reg model field_names with
  | .error e => .error e
  | .ok fns =>
      .ok ((members.map (fun m => values_item reg m fns)).filter
        (fun row => !row.isEmpty))

/-- StaticModelMembers.values_list with flat=False: one tuple per member,
kept when truthy (non-empty). -/
def values_list (reg : Registry) (model : Model) (members : List Member)
    (field_names : List String) : Except PyErr (List (List Value)) :=
  match resolve_projection_fields reg model field_names with
  | .error e => .error e
  | .ok fns =>
      .ok ((members.map (fun m => values_list_item m fns)).filter
        (fun row => !row.isEmpty))

/-- StaticModelMembers.values_list with flat=True: chain every member's
projected tuple and keep only the truthy elements. -/
def values_list_flat (reg : Registry) (model : Model) (members : List Member)
    (field_names : List String) : Except PyErr (List Value) :=
  match resolve_projection_fields reg model field_names with
  | .error e => .error e
  | .ok fns =>
      .ok ((members.flatMap (fun m => values_list_item m fns)).filter pyTruthy)

/-- Every member reference a model's structures hold (member store, name
map, index buckets). -/
def occurrences (model : Model) : List Member :=
  model.by_id.map (fun p => p.2)
  ++ model.by_member_name.map (fun p => p.2)
  ++ model.indexes.flatMap (fun p => p.2.flatMap (fun q => q.2))

/-- The identity discipline Python object references give the runtime for
free and the construction pipeline maintains: equal `id()` means the same
member record, and `by_member_name` maps each name to a member carrying
that name.  Stated as an explicit decidable hypothesis on a model. -/
def ModelCoherent (model : Model) : Prop :=
  (∀ a ∈ occurrences model, ∀ b ∈ occurrences model, a.id = b.id → a = b)
  ∧ (∀ p ∈ model.by_member_name, p.2.member_name = some p.1)

instance (model : Model) : Decidable (ModelCoherent model) := by
  unfold ModelCoherent
  infer_instance

/-- A model with no state (used only as a lookup default in statements). -/
def emptyModel : Model :=
  { name := "", base := none, field_names := [], by_id := [],
    by_member_name := [], indexes := [], submodels := [] }

/-- The empty world: no models defined yet, `id()` counter at 1. -/
def reg0 : Registry := { models := [], next_id := 1 }

/-- The class body of the spec's example collection A:
fields `(name, flies)`, members `DOG = (\x27Dog\x27, False)` and
`BIRD = (\x27Bird\x27, True)`. -/
def bodyA : List (String × Decl) :=
  [("DOG", .raw (.vtuple [.vstr "Dog", .vbool false])),
   ("BIRD", .raw (.vtuple [.vstr "Bird", .vbool true]))]

/-- The class body of the example sub-collection B:
`EAGLE = (\x27Eagle\x27, True)`. -/
def bodyB : List (String × Decl) :=
  [("EAGLE", .raw (.vtuple [.vstr "Eagle", .vbool true]))]

/-- The registry after defining collection A. -/
def regA : Registry :=
  match define_model reg0 "A" none (some ["name", "flies"]) bodyA with
  | .ok r => r
  | .error _ => reg0

/-- The registry after additionally defining B as a subclass of A. -/
def regAB : Registry :=
  match define_model regA "B" (some "A") none bodyB with
  | .ok r => r
  | .error _ => regA

/-- Collection A's class state before B exists. -/
def modelA : Model := (lookupModel regA "A").getD emptyModel

/-- Collection A's class state after B was defined (it has gained EAGLE). -/
def modelA' : Model := (lookupModel regAB "A").getD emptyModel

/-- Collection B's class state. -/
def modelB : Model := (lookupModel regAB "B").getD emptyModel

/-- The member instance built for `A.DOG`. -/
def memDOG : Member :=
  { id := 1, cls := "A", member_name := some "DOG",
    raw_value := .vtuple [.vstr "Dog", .vbool false],
    fields := [("name", .vstr "Dog"), ("flies", .vbool false)] }

/-- The member instance built for `A.BIRD`. -/
def memBIRD : Member :=
  { id := 2, cls := "A", member_name := some "BIRD",
    raw_value := .vtuple [.vstr "Bird", .vbool true],
    fields := [("name", .vstr "Bird"), ("flies", .vbool true)] }

/-- The member instance built for `B.EAGLE`. -/
def memEAGLE : Member :=
  { id := 3, cls := "B", member_name := some "EAGLE",
    raw_value := .vtuple [.vstr "Eagle", .vbool true],
    fields := [("name", .vstr "Eagle"), ("flies", .vbool true)] }

theorem dlookup_dinsert {κ β : Type} [DecidableEq κ] :
    ∀ (d : List (κ × β)) (k : κ) (v : β), dlookup (dinsert d k v) k = some v
  | [], k, v => by simp [dinsert, dlookup]
  | (k', v') :: rest, k, v => by
      by_cases h : k' = k
      · simp [dinsert, h, dlookup]
      · simp only [dinsert, if_neg h, dlookup]
        exact dlookup_dinsert rest k v

theorem dlookup_dinsert_ne {κ β : Type} [DecidableEq κ] :
    ∀ (d : List (κ × β)) (k k2 : κ) (v : β), k2 ≠ k →
      dlookup (dinsert d k v) k2 = dlookup d k2
  | [], k, k2, v, h => by
      simp only [dinsert, dlookup]
      rw [if_neg (fun he => h he.symm)]
  | (k', v') :: rest, k, k2, v, h => by
      by_cases hk : k' = k
      · subst hk
        simp only [dinsert, if_pos rfl, dlookup]
        rw [if_neg (fun he => h he.symm), if_neg (fun he => h he.symm)]
      · simp only [dinsert, if_neg hk, dlookup]
        by_cases h2 : k' = k2
        · rw [if_pos h2, if_pos h2]
        · rw [if_neg h2, if_neg h2]
          exact dlookup_dinsert_ne rest k k2 v h

theorem dlookup_mem {κ β : Type} [DecidableEq κ] :
    ∀ (d : List (κ × β)) (k : κ) (v : β), dlookup d k = some v → (k, v) ∈ d
  | [], k, v, h => by simp [dlookup] at h
  | (k', v') :: rest, k, v, h => by
      by_cases hk : k' = k
      · subst hk
        simp [dlookup] at h
        subst h
        exact List.mem_cons_self _ _
      · simp only [dlookup, if_neg hk] at h
        exact List.mem_cons_of_mem _ (dlookup_mem rest k v h)

theorem mem_dinsert_self {κ β : Type} [DecidableEq κ] :
    ∀ (d : List (κ × β)) (k : κ) (v : β), (k, v) ∈ dinsert d k v
  | [], k, v => by simp [dinsert]
  | (k', v') :: rest, k, v => by
      by_cases h : k' = k
      · simp [dinsert, h]
      · simp only [dinsert, if_neg h, List.mem_cons]
        exact Or.inr (mem_dinsert_self rest k v)

theorem mem_dinsert_of_ne {κ β : Type} [DecidableEq κ] :
    ∀ (d : List (κ × β)) (k k2 : κ) (v v2 : β),
      (k2, v2) ∈ d → k2 ≠ k → (k2, v2) ∈ dinsert d k v
  | [], _, _, _, _, hm, _ => by simp at hm
  | (k', v') :: rest, k, k2, v, v2, hm, hne => by
      rcases List.mem_cons.mp hm with he | hm'
      · by_cases h : k' = k
        · exfalso
          have : k' = k2 := congrArg Prod.fst he.symm
          exact hne (this ▸ h)
        · simp only [dinsert, if_neg h, List.mem_cons]
          exact Or.inl he
      · by_cases h : k' = k
        · simp only [dinsert, if_pos h, List.mem_cons]
          exact Or.inr hm'
        · simp only [dinsert, if_neg h, List.mem_cons]
          exact Or.inr (mem_dinsert_of_ne rest k k2 v v2 hm' hne)

theorem not_mem_of_dlookup_none {κ β : Type} [DecidableEq κ] :
    ∀ (d : List (κ × β)) (k : κ), dlookup d k = none → ∀ v, (k, v) ∉ d
  | [], _, _, v => by simp
  | (k', v') :: rest, k, h, v => by
      by_cases hk : k' = k
      · subst hk; simp [dlookup] at h
      · simp only [dlookup, if_neg hk] at h
        intro hm
        rcases List.mem_cons.mp hm with he | hm'
        · exact hk (congrArg Prod.fst he).symm
        · exact not_mem_of_dlookup_none rest k h v hm'

theorem except_bind_ok {ε α β : Type} (a : Except ε α) (g : α → Except ε β)
    (c : β) (h : (a >>= g) = .ok c) : ∃ b, a = .ok b ∧ g b = .ok c := by
  cases a with
  | error e => simp [Bind.bind, Except.bind] at h
  | ok b => exact ⟨b, rfl, by simpa [Bind.bind, Except.bind] using h⟩

theorem dedupe_sublist :
    ∀ (l : List Member) (seen : List Nat), (dedupe_by_id l seen).Sublist l
  | [], _ => .slnil
  | m :: rest, seen => by
      by_cases h : m.id ∈ seen
      · simp only [dedupe_by_id, if_pos h]
        exact (dedupe_sublist rest seen).cons m
      · simp only [dedupe_by_id, if_neg h]
        exact (dedupe_sublist rest (m.id :: seen)).cons₂ m

theorem dedupe_not_seen :
    ∀ (l : List Member) (seen : List Nat), ∀ x ∈ dedupe_by_id l seen,
      x.id ∉ seen
  | [], _ => by simp [dedupe_by_id]
  | m :: rest, seen => by
      intro x hx
      by_cases h : m.id ∈ seen
      · simp only [dedupe_by_id, if_pos h] at hx
        exact dedupe_not_seen rest seen x hx
      · simp only [dedupe_by_id, if_neg h, List.mem_cons] at hx
        rcases hx with rfl | hx
        · exact h
        · have hns := dedupe_not_seen rest (m.id :: seen) x hx
          exact fun hc => hns (List.mem_cons_of_mem _ hc)

theorem dedupe_pairwise :
    ∀ (l : List Member) (seen : List Nat),
      (dedupe_by_id l seen).Pairwise (fun a b => a.id ≠ b.id)
  | [], _ => by simp [dedupe_by_id]
  | m :: rest, seen => by
      by_cases h : m.id ∈ seen
      · simp only [dedupe_by_id, if_pos h]
        exact dedupe_pairwise rest seen
      · simp only [dedupe_by_id, if_neg h]
        refine List.Pairwise.cons ?_ (dedupe_pairwise rest (m.id :: seen))
        intro b hb
        have hns := dedupe_not_seen rest (m.id :: seen) b hb
        intro he
        exact hns (he ▸ List.mem_cons_self _ _)

theorem dedupe_mem_of :
    ∀ (l : List Member) (seen : List Nat) (x : Member), x ∈ l →
      (∀ y ∈ l, y.id = x.id → y = x) → x.id ∉ seen →
      x ∈ dedupe_by_id l seen
  | [], _, _, hx, _, _ => by simp at hx
  | m :: rest, seen, x, hx, huniq, hseen => by
      rcases List.mem_cons.mp hx with rfl | hx'
      · simp only [dedupe_by_id, if_neg hseen]
        exact List.mem_cons_self _ _
      · by_cases h : m.id ∈ seen
        · simp only [dedupe_by_id, if_pos h]
          exact dedupe_mem_of rest seen x hx'
            (fun y hy => huniq y (List.mem_cons_of_mem _ hy)) hseen
        · by_cases hid : m.id = x.id
          · have : m = x := huniq m (List.mem_cons_self _ _) hid
            subst this
            simp only [dedupe_by_id, if_neg h]
            exact List.mem_cons_self _ _
          · simp only [dedupe_by_id, if_neg h, List.mem_cons]
            refine Or.inr (dedupe_mem_of rest (m.id :: seen) x hx'
              (fun y hy => huniq y (List.mem_cons_of_mem _ hy)) ?_)
            intro hc
            rcases List.mem_cons.mp hc with he | hc'
            · exact hid he.symm
            · exact hseen hc'

theorem dedupe_nil_of_seen :
    ∀ (l : List Member) (seen : List Nat), (∀ y ∈ l, y.id ∈ seen) →
      dedupe_by_id l seen = []
  | [], _, _ => rfl
  | m :: rest, seen, h => by
      simp only [dedupe_by_id, if_pos (h m (List.mem_cons_self _ _))]
      exact dedupe_nil_of_seen rest seen
        (fun y hy => h y (List.mem_cons_of_mem _ hy))

theorem dedupe_all_eq (l : List Member) (m : Member) (hne : l ≠ [])
    (hall : ∀ y ∈ l, y = m) : dedupe_by_id l [] = [m] := by
  match l, hne with
  | y :: rest, _ =>
    have hy : y = m := hall y (List.mem_cons_self _ _)
    subst hy
    simp only [dedupe_by_id, List.not_mem_nil, if_neg (fun h => h)]
    rw [dedupe_nil_of_seen rest [y.id] ?_]
    intro z hz
    have : z = y := hall z (List.mem_cons_of_mem _ hz)
    rw [this]
    exact List.mem_cons_self _ _

theorem occ_by_member_name (model : Model) (k : String) (m : Member)
    (h : (k, m) ∈ model.by_member_name) : m ∈ occurrences model := by
  unfold occurrences
  refine List.mem_append.mpr (Or.inl (List.mem_append.mpr (Or.inr ?_)))
  exact List.mem_map_of_mem (fun p => p.2) h

theorem occ_by_id (model : Model) (i : Nat) (m : Member)
    (h : (i, m) ∈ model.by_id) : m ∈ occurrences model := by
  unfold occurrences
  refine List.mem_append.mpr (Or.inl (List.mem_append.mpr (Or.inl ?_)))
  exact List.mem_map_of_mem (fun p => p.2) h

theorem occ_index (model : Model) (f : String)
    (idx : List (Int × List Member)) (key : Int) (bucket : List Member)
    (x : Member) (h1 : dlookup model.indexes f = some idx)
    (h2 : ilookup idx key = some bucket) (hx : x ∈ bucket) :
    x ∈ occurrences model := by
  unfold occurrences
  refine List.mem_append.mpr (Or.inr ?_)
  refine List.mem_flatMap.mpr ⟨(f, idx), dlookup_mem _ _ _ h1, ?_⟩
  exact List.mem_flatMap.mpr ⟨(key, bucket), dlookup_mem _ _ _ h2, hx⟩

theorem getattrM_member_name (mem : Member) :
    getattrM mem member_name_attr
      = some (match mem.member_name with
              | some n => .vstr n
              | none => .vnone) := by
  have h : member_name_attr ≠ raw_value_attr := by decide
  simp [getattrM, h]

theorem sorted_no_member_name (crit : List (String × Value))
    (h : ∀ p ∈ crit, p.1 ≠ member_name_attr) :
    sorted_criteria crit = crit := by
  unfold sorted_criteria
  rw [List.partition_eq_filter_filter]
  have h1 : crit.filter (fun x => decide (x.1 = member_name_attr)) = [] := by
    rw [List.filter_eq_nil_iff]
    intro p hp
    simp [h p hp]
  have h2 : crit.filter (not ∘ fun x => decide (x.1 = member_name_attr)) = crit := by
    rw [List.filter_eq_self]
    intro p hp
    simp [Function.comp, h p hp]
  simp only [h1, h2, List.nil_append]

theorem probe_step_yield1 (model : Model) (f : String) (v : Value)
    (mem : Member) (h : probe_step model f v = .yield1 mem) :
    f = member_name_attr ∧
      ∃ s, v = .vstr s ∧ dlookup model.by_member_name s = some mem := by
  unfold probe_step at h
  by_cases hf : f = member_name_attr
  · rw [if_pos hf] at h
    by_cases hh : hashable v
    · rw [if_pos hh] at h
      cases v with
      | vstr s =>
          have h' : (match dlookup model.by_member_name s with
                     | some m2 => ProbeStep.yield1 m2
                     | none => ProbeStep.stop) = ProbeStep.yield1 mem := h
          cases hlk : dlookup model.by_member_name s with
          | some m2 =>
              rw [hlk] at h'
              simp only [ProbeStep.yield1.injEq] at h'
              exact ⟨hf, s, rfl, h' ▸ hlk⟩
          | none => rw [hlk] at h'; simp at h'
      | vnone => simp at h
      | vbool b => simp at h
      | vint n => simp at h
      | vtuple vs => simp at h
      | vlist vs => simp at h
    · rw [if_neg hh] at h; simp at h
  · rw [if_neg hf] at h
    cases hidx : dlookup model.indexes f with
    | none =>
        rw [hidx] at h
        by_cases hfn : model.field_names.contains f
        · rw [if_pos hfn] at h; simp at h
        · rw [if_neg hfn] at h; simp at h
    | some index => rw [hidx] at h; simp at h

theorem probe_step_yieldMany (model : Model) (f : String) (v : Value)
    (ms : List Member) (h : probe_step model f v = .yieldMany ms) :
    f ≠ member_name_attr ∧ ∃ index, dlookup model.indexes f = some index ∧
      ms = (ilookup index (index_key_for_value v)).getD [] := by
  unfold probe_step at h
  by_cases hf : f = member_name_attr
  · rw [if_pos hf] at h
    by_cases hh : hashable v
    · rw [if_pos hh] at h
      cases v with
      | vstr s =>
          have h' : (match dlookup model.by_member_name s with
                     | some m2 => ProbeStep.yield1 m2
                     | none => ProbeStep.stop) = ProbeStep.yieldMany ms := h
          cases hlk : dlookup model.by_member_name s with
          | some m2 => rw [hlk] at h'; simp at h'
          | none => rw [hlk] at h'; simp at h'
      | vnone => simp at h
      | vbool b => simp at h
      | vint n => simp at h
      | vtuple vs => simp at h
      | vlist vs => simp at h
    · rw [if_neg hh] at h; simp at h
  · rw [if_neg hf] at h
    cases hidx : dlookup model.indexes f with
    | none =>
        rw [hidx] at h
        by_cases hfn : model.field_names.contains f
        · rw [if_pos hfn] at h; simp at h
        · rw [if_neg hfn] at h; simp at h
    | some index =>
        rw [hidx] at h
        simp only [ProbeStep.yieldMany.injEq] at h
        exact ⟨hf, index, rfl, h.symm⟩

theorem probe_step_of_indexed (model : Model) (f : String) (v : Value)
    (index : List (Int × List Member)) (hf : f ≠ member_name_attr)
    (hidx : dlookup model.indexes f = some index) :
    probe_step model f v
      = .yieldMany ((ilookup index (index_key_for_value v)).getD []) := by
  unfold probe_step
  rw [if_neg hf, hidx]

theorem probe_step_of_skip (model : Model) (f : String) (v : Value)
    (hf : f ≠ member_name_attr) (hidx : dlookup model.indexes f = none)
    (hfn : model.field_names.contains f) : probe_step model f v = .skip := by
  unfold probe_step
  rw [if_neg hf, hidx, if_pos hfn]

theorem probe_step_of_invalid (model : Model) (f : String) (v : Value)
    (hf : f ≠ member_name_attr) (hidx : dlookup model.indexes f = none)
    (hfn : ¬ model.field_names.contains f) :
    probe_step model f v
      = .fail (.invalidField ("Invalid field \x27" ++ f ++ "\x27")) := by
  unfold probe_step
  rw [if_neg hf, hidx, if_neg hfn]

theorem probe_occ (model : Model) :
    ∀ (cs : List (String × Value)) (acc s : List Member),
      probe_aux model cs acc = .ok s →
      (∀ x ∈ acc, x ∈ occurrences model) → ∀ x ∈ s, x ∈ occurrences model
  | [], acc, s, h, hacc => by
      simp only [probe_aux, Except.ok.injEq] at h
      exact h ▸ hacc
  | (f, v) :: rest, acc, s, h, hacc => by
      rw [probe_aux] at h
      cases hstep : probe_step model f v with
      | stop =>
          rw [hstep] at h
          simp only [Except.ok.injEq] at h
          exact h ▸ hacc
      | yield1 m =>
          rw [hstep] at h
          obtain ⟨_, sv, _, hlk⟩ := probe_step_yield1 model f v m hstep
          refine probe_occ model rest (acc ++ [m]) s h ?_
          intro x hx
          rcases List.mem_append.mp hx with hx' | hx'
          · exact hacc x hx'
          · rw [List.mem_singleton.mp hx']
            exact occ_by_member_name model sv m (dlookup_mem _ _ _ hlk)
      | yieldMany ms =>
          rw [hstep] at h
          obtain ⟨_, index, hidx, hms⟩ := probe_step_yieldMany model f v ms hstep
          refine probe_occ model rest (acc ++ ms) s h ?_
          intro x hx
          rcases List.mem_append.mp hx with hx' | hx'
          · exact hacc x hx'
          · cases hbk : ilookup index (index_key_for_value v) with
            | none => rw [hbk] at hms; simp only [Option.getD_none] at hms
                      rw [hms] at hx'; simp at hx'
            | some bucket =>
                rw [hbk] at hms
                simp only [Option.getD_some] at hms
                exact occ_index model f index (index_key_for_value v)
                  bucket x hidx hbk (hms ▸ hx')
      | skip =>
          rw [hstep] at h
          exact probe_occ model rest acc s h hacc
      | fail e =>
          rw [hstep] at h
          exact absurd h (by simp)

theorem verify_sound (model : Model) (crit : List (String × Value))
    (mem : Member) (hcoh : ModelCoherent model)
    (hocc : mem ∈ occurrences model)
    (hv : verify_member model crit mem = true) :
    ∀ p ∈ crit, ∃ w, getattrM mem p.1 = some w ∧ pyEq w p.2 = true := by
  intro p hp
  have hall := (List.all_eq_true.mp hv) p hp
  simp only [Bool.or_eq_true, Bool.and_eq_true] at hall
  rcases hall with ⟨hname, hrest⟩ | hright
  · have hname' : p.1 = member_name_attr := of_decide_eq_true hname
    cases hp2 : p.2 with
    | vstr s =>
        rw [hp2] at hrest
        have hrest' : (match dlookup model.by_member_name s with
                       | some m2 => decide (m2.id = mem.id)
                       | none => false) = true := hrest
        cases hlk : dlookup model.by_member_name s with
        | none => rw [hlk] at hrest'; exact absurd hrest' (by simp)
        | some m2 =>
            rw [hlk] at hrest'
            have hid : m2.id = mem.id := of_decide_eq_true hrest'
            have hm2occ : m2 ∈ occurrences model :=
              occ_by_member_name model s m2 (dlookup_mem _ _ _ hlk)
            have heq : m2 = mem := hcoh.1 m2 hm2occ mem hocc hid
            have hmn : m2.member_name = some s :=
              hcoh.2 (s, m2) (dlookup_mem _ _ _ hlk)
            refine ⟨.vstr s, ?_, ?_⟩
            · rw [hname', getattrM_member_name, ← heq, hmn]
            · simp [hp2, pyEq]
    | vnone => rw [hp2] at hrest; exact absurd hrest (by simp)
    | vbool b => rw [hp2] at hrest; exact absurd hrest (by simp)
    | vint n => rw [hp2] at hrest; exact absurd hrest (by simp)
    | vtuple vs => rw [hp2] at hrest; exact absurd hrest (by simp)
    | vlist vs => rw [hp2] at hrest; exact absurd hrest (by simp)
  · cases hg : getattrM mem p.1 with
    | none => rw [hg] at hright; exact absurd hright (by simp)
    | some w =>
        rw [hg] at hright
        exact ⟨w, rfl, hright⟩

theorem verify_sound_no_mn (model : Model) (crit : List (String × Value))
    (mem : Member) (hmn : ∀ p ∈ crit, p.1 ≠ member_name_attr)
    (hv : verify_member model crit mem = true) :
    ∀ p ∈ crit, ∃ w, getattrM mem p.1 = some w ∧ pyEq w p.2 = true := by
  intro p hp
  have hall := (List.all_eq_true.mp hv) p hp
  simp only [Bool.or_eq_true, Bool.and_eq_true] at hall
  rcases hall with ⟨hname, _⟩ | hright
  · exact absurd (of_decide_eq_true hname) (hmn p hp)
  · cases hg : getattrM mem p.1 with
    | none => rw [hg] at hright; exact absurd hright (by simp)
    | some w =>
        rw [hg] at hright
        exact ⟨w, rfl, hright⟩

theorem filter_ok_inversion (model : Model) (crit : List (String × Value))
    (l : List Member) (hne : crit ≠ []) (h : filter model crit = .ok l) :
    ∃ s, get_index_search_results model crit = .ok s ∧
      l = dedupe_by_id (s.filter (verify_member model crit)) [] := by
  unfold filter at h
  rw [if_neg (by simpa using hne)] at h
  cases hg : get_index_search_results model crit with
  | error e => rw [hg] at h; exact absurd h (by simp)
  | ok s =>
      rw [hg] at h
      simp only [Except.ok.injEq] at h
      exact ⟨s, rfl, h.symm⟩

theorem flatMap_one {α β : Type} (l : List α) (g : α → β) :
    l.flatMap (fun a => [g a]) = l.map g := by
  induction l with
  | nil => rfl
  | cons a as ih => simp [ih]

/-- Claim C2: for every non-empty criteria mapping, every member in the
list returned by filter satisfies each criteria field by attribute
comparison (`==`, the negation of the `!=` test) — so index-key-collision
candidates and candidates lacking the attribute are discarded — and no
member occurs twice: the result is de-duplicated by identity, keeping
first-seen order (a sublist of the surfaced candidate sequence with
pairwise distinct identities). -/
theorem c2_filter_exact_match (model : Model) (crit : List (String × Value))
    (l : List Member) (hne : crit ≠ []) (hcoh : ModelCoherent model)
    (hok : filter model crit = .ok l) :
    (∀ mem ∈ l, ∀ p ∈ crit, ∃ w, getattrM mem p.1 = some w ∧ pyEq w p.2 = true)
    ∧ List.Pairwise (fun a b => a.id ≠ b.id) l
    ∧ ∃ s, get_index_search_results model crit = .ok s ∧ l.Sublist s := by
  obtain ⟨s, hs, hl⟩ := filter_ok_inversion model crit l hne hok
  subst hl
  have hs' : probe_aux model (sorted_criteria crit) [] = .ok s := hs
  refine ⟨?_, dedupe_pairwise _ _, s, hs, ?_⟩
  · intro mem hmem p hp
    have hmem' : mem ∈ s.filter (verify_member model crit) :=
      (dedupe_sublist _ _).subset hmem
    have hms : mem ∈ s := (List.mem_filter.mp hmem').1
    have hverify : verify_member model crit mem = true :=
      (List.mem_filter.mp hmem').2
    have hocc : mem ∈ occurrences model :=
      probe_occ model (sorted_criteria crit) [] s hs' (by simp) mem hms
    exact verify_sound model crit mem hcoh hocc hverify p hp
  · exact (dedupe_sublist _ _).trans (List.filter_sublist _)

/-- Witness for C2 on the example hierarchy: filtering A (after B was
defined) on flies=True returns BIRD and EAGLE, each matching the
criterion, without duplicates and in surfaced order. -/
theorem c2_witness :
    (∀ mem ∈ [memBIRD, memEAGLE],
      ∀ p ∈ ([("flies", Value.vbool true)] : List (String × Value)),
        ∃ w, getattrM mem p.1 = some w ∧ pyEq w p.2 = true)
    ∧ List.Pairwise (fun a b => a.id ≠ b.id) [memBIRD, memEAGLE]
    ∧ ∃ s, get_index_search_results modelA' [("flies", Value.vbool true)]
        = .ok s ∧ List.Sublist [memBIRD, memEAGLE] s :=
  c2_filter_exact_match modelA' [("flies", Value.vbool true)]
    [memBIRD, memEAGLE] (by simp) (by decide) rfl

/-- Claim C3: get returns the unique member when filter yields exactly one
result; raises DoesNotExist on zero results unless `_return_none=True` (then
returns None); raises MultipleObjectsReturned on two or more results even
when `_return_none=True`; both errors carry the collection name and the
rendered criteria. -/
theorem c3_get_discrimination (model : Model) (rn : Bool)
    (criteria : List (String × Value)) (l : List Member)
    (h : filter model criteria = .ok l) :
    (l = [] → rn = false → get model rn criteria
        = .error (.doesNotExist (model.name ++ ".members.get("
          ++ format_kwargs criteria ++ ") yielded no objects.")))
    ∧ (l = [] → rn = true → get model rn criteria = .ok none)
    ∧ (∀ m, l = [m] → get model rn criteria = .ok (some m))
    ∧ (2 ≤ l.length → get model rn criteria
        = .error (.multipleObjectsReturned (model.name ++ ".members.get("
          ++ format_kwargs criteria ++ ") yielded multiple objects."))) := by
  unfold get
  rw [h]
  refine ⟨?_, ?_, ?_, ?_⟩
  · intro h1 h2; subst h1; subst h2; rfl
  · intro h1 h2; subst h1; subst h2; rfl
  · intro m h1; subst h1; rfl
  · intro h2
    match l, h2 with
    | a :: b :: rest, _ => rfl

/-- Witness for C3 on the example hierarchy: get(name=Eagle) returns the
unique EAGLE member. -/
theorem c3_witness :
    get modelA' false [("name", Value.vstr "Eagle")] = .ok (some memEAGLE) :=
  (c3_get_discrimination modelA' false [("name", Value.vstr "Eagle")]
    [memEAGLE] rfl).2.2.1 memEAGLE rfl

/-- Claim C9: values_list(f, flat=True) omits every falsy projected value
(False, 0, empty string, None — including the None placeholder an absent
field projects to), so the flat list can be shorter than the member
sequence. -/
theorem c9_values_list_flat_drops_falsy (reg : Registry) (model : Model)
    (members : List Member) (f : String) (res : List Value)
    (h : values_list_flat reg model members [f] = .ok res) :
    res = (members.map (fun m => (getattrM m f).getD Value.vnone)).filter
      pyTruthy := by
  unfold values_list_flat at h
  cases hr : resolve_projection_fields reg model [f] with
  | error e => rw [hr] at h; exact absurd h (by simp)
  | ok fns =>
      rw [hr] at h
      have hfns : fns = [f] := by
        unfold resolve_projection_fields at hr
        rw [if_neg (by simp)] at hr
        by_cases hv : ([f] : List String).all
            (fun g => (available_field_names reg model).contains g)
        · rw [if_pos hv] at hr
          simp only [Except.ok.injEq] at hr
          exact hr.symm
        · rw [if_neg hv] at hr
          exact absurd hr (by simp)
      subst hfns
      simp only [Except.ok.injEq] at h
      rw [← h]
      have hitem : members.flatMap (fun m => values_list_item m [f])
          = members.map (fun m => (getattrM m f).getD Value.vnone) := by
        have := flatMap_one members (fun m => (getattrM m f).getD Value.vnone)
        simpa [values_list_item] using this
      rw [hitem]

/-- Witness for C9: projecting flies flat over the example members drops
DOG's False, keeping only the two True values. -/
theorem c9_witness :
    ([Value.vbool true, Value.vbool true] : List Value)
      = ((all_members modelA').map
          (fun m => (getattrM m "flies").getD Value.vnone)).filter pyTruthy :=
  c9_values_list_flat_drops_falsy regAB modelA' (all_members modelA')
    "flies" [Value.vbool true, Value.vbool true] rfl

theorem dict_pop_fst :
    ∀ (d : List (String × Value)) (k : String), (dict_pop d k).1 = dlookup d k
  | [], k => rfl
  | (k', v) :: rest, k => by
      by_cases h : k' = k
      · simp [dict_pop, h, dlookup]
      · simp only [dict_pop, if_neg h, dlookup]
        exact dict_pop_fst rest k

theorem dict_pop_lookup_ne :
    ∀ (d : List (String × Value)) (k g : String), g ≠ k →
      dlookup (dict_pop d k).2 g = dlookup d g
  | [], _, _, _ => rfl
  | (k', v) :: rest, k, g, hg => by
      by_cases h : k' = k
      · simp only [dict_pop, if_pos h, dlookup]
        rw [if_neg (show ¬ k' = g from fun hc => hg (hc.symm.trans h))]
      · simp only [dict_pop, if_neg h, dlookup]
        by_cases h2 : k' = g
        · rw [if_pos h2, if_pos h2]
        · rw [if_neg h2, if_neg h2]
          exact dict_pop_lookup_ne rest k g hg

theorem dinsert_append_fresh {κ β : Type} [DecidableEq κ] :
    ∀ (acc : List (κ × β)) (f : κ) (v : β),
      (∀ p ∈ acc, p.1 ≠ f) → dinsert acc f v = acc ++ [(f, v)]
  | [], _, _, _ => rfl
  | (k', v') :: rest, f, v, h => by
      have hk : k' ≠ f := h (k', v') (List.mem_cons_self _ _)
      simp only [dinsert, if_neg hk, List.cons_append, List.cons.injEq,
        true_and]
      exact dinsert_append_fresh rest f v
        (fun p hp => h p (List.mem_cons_of_mem _ hp))

theorem values_item_aux_eq :
    ∀ (fs : List String) (d acc : List (String × Value)), fs.Nodup →
      (∀ f ∈ fs, ∀ p ∈ acc, p.1 ≠ f) →
      values_item_aux fs d acc
        = acc ++ fs.map (fun f => (f, (dlookup d f).getD Value.vnone))
  | [], d, acc, _, _ => by simp [values_item_aux]
  | f :: rest, d, acc, hnd, hfresh => by
      obtain ⟨hf_rest, hnd'⟩ := List.nodup_cons.mp hnd
      simp only [values_item_aux]
      rw [dinsert_append_fresh acc f _
        (fun p hp => hfresh f (List.mem_cons_self _ _) p hp)]
      rw [values_item_aux_eq rest (dict_pop d f).2
        (acc ++ [(f, ((dict_pop d f).1.getD Value.vnone))]) hnd' ?_]
      · rw [dict_pop_fst]
        have hmap : rest.map
              (fun g => (g, (dlookup (dict_pop d f).2 g).getD Value.vnone))
            = rest.map (fun g => (g, (dlookup d g).getD Value.vnone)) := by
          refine List.map_congr_left ?_
          intro g hg
          rw [dict_pop_lookup_ne d f g (fun hc => hf_rest (hc ▸ hg))]
        rw [hmap]
        simp
      · intro g hg p hp
        rcases List.mem_append.mp hp with hp' | hp'
        · exact hfresh g (List.mem_cons_of_mem _ hg) p hp'
        · rw [List.mem_singleton.mp hp']
          intro hc
          have hc' : f = g := hc
          exact hf_rest (show f ∈ rest from hc'.symm ▸ hg)

theorem dlookup_map_pair :
    ∀ (fns : List String) (g : String → Value) (f : String),
      dlookup (fns.map (fun fn => (fn, g fn))) f
        = if f ∈ fns then some (g f) else none
  | [], g, f => by simp [dlookup]
  | fn :: rest, g, f => by
      by_cases h : fn = f
      · subst h
        simp [dlookup]
      · simp only [List.map_cons, dlookup, if_neg h]
        rw [dlookup_map_pair rest g f]
        by_cases hm : f ∈ rest
        · rw [if_pos hm, if_pos (List.mem_cons_of_mem _ hm)]
        · rw [if_neg hm, if_neg ?_]
          intro hc
          rcases List.mem_cons.mp hc with he | hm'
          · exact h he.symm
          · exact hm hm'

theorem as_dict_absent (reg : Registry) (m : Member) (f : String)
    (h : getattrM m f = none) :
    (dlookup (as_dict reg m) f).getD Value.vnone = Value.vnone := by
  unfold as_dict
  rw [dlookup_map_pair]
  split
  · rw [h]; rfl
  · rfl

theorem values_item_eq (reg : Registry) (m : Member) (fs : List String)
    (hnd : fs.Nodup) :
    values_item reg m fs
      = fs.map (fun f => (f, (dlookup (as_dict reg m) f).getD Value.vnone)) := by
  unfold values_item
  rw [values_item_aux_eq fs (as_dict reg m) [] hnd (by simp)]
  simp

theorem resolve_fields_ok (reg : Registry) (model : Model) (fs fns : List String)
    (hne : fs ≠ []) (hr : resolve_projection_fields reg model fs = .ok fns) :
    fns = fs := by
  unfold resolve_projection_fields at hr
  rw [if_neg (fun hc => hne (List.isEmpty_iff.mp hc))] at hr
  by_cases hv : fs.all (fun f => (available_field_names reg model).contains f)
  · rw [if_pos hv] at hr
    simp only [Except.ok.injEq] at hr
    exact hr.symm
  · rw [if_neg hv] at hr
    exact absurd hr (by simp)

/-- Claim C10: the projection methods use a null-placeholder policy, not an
omission policy — every requested field a member lacks appears as the key
mapped to None in values() and as a None tuple slot in non-flat
values_list(), so every non-flat projected row has exactly one entry per
requested field. -/
theorem c10_projection_null_placeholder (reg : Registry) (model : Model)
    (members : List Member) (fs : List String)
    (rowsV : List (List (String × Value))) (rowsL : List (List Value))
    (hnd : fs.Nodup) (hne : fs ≠ [])
    (hv : values reg model members fs = .ok rowsV)
    (hl : values_list reg model members fs = .ok rowsL) :
    rowsV = members.map (fun m => fs.map
      (fun f => (f, (dlookup (as_dict reg m) f).getD Value.vnone)))
    ∧ rowsL = members.map (fun m => fs.map
      (fun f => (getattrM m f).getD Value.vnone))
    ∧ (∀ row ∈ rowsL, row.length = fs.length)
    ∧ (∀ m ∈ members, ∀ f ∈ fs, getattrM m f = none →
        (dlookup (as_dict reg m) f).getD Value.vnone = Value.vnone) := by
  unfold values at hv
  unfold values_list at hl
  cases hr : resolve_projection_fields reg model fs with
  | error e =>
      rw [hr] at hv
      exact absurd hv (by simp)
  | ok fns =>
      have hfns : fns = fs := resolve_fields_ok reg model fs fns hne hr
      rw [hr] at hv hl
      rw [hfns] at hv hl
      simp only [Except.ok.injEq] at hv hl
      obtain ⟨f0, fs', hfs⟩ := List.exists_cons_of_ne_nil hne
      have hrowV : ∀ m : Member, values_item reg m fs
          = fs.map (fun f => (f, (dlookup (as_dict reg m) f).getD Value.vnone)) :=
        fun m => values_item_eq reg m fs hnd
      have hkeepV : (members.map (fun m => values_item reg m fs)).filter
          (fun row => !row.isEmpty)
          = members.map (fun m => values_item reg m fs) := by
        rw [List.filter_eq_self]
        intro row hrow
        obtain ⟨m, _, hm⟩ := List.mem_map.mp hrow
        rw [← hm, hrowV m, hfs]
        simp
      have hkeepL : (members.map (fun m => values_list_item m fs)).filter
          (fun row => !row.isEmpty)
          = members.map (fun m => values_list_item m fs) := by
        rw [List.filter_eq_self]
        intro row hrow
        obtain ⟨m, _, hm⟩ := List.mem_map.mp hrow
        rw [← hm]
        unfold values_list_item
        rw [hfs]
        simp
      refine ⟨?_, ?_, ?_, ?_⟩
      · rw [← hv, hkeepV]
        exact List.map_congr_left (fun m _ => hrowV m)
      · rw [← hl, hkeepL]
        exact List.map_congr_left (fun m _ => rfl)
      · intro row hrow
        rw [← hl, hkeepL] at hrow
        obtain ⟨m, _, hm⟩ := List.mem_map.mp hrow
        rw [← hm]
        unfold values_list_item
        exact List.length_map _ _
      · intro m _ f _ hgf
        exact as_dict_absent reg m f hgf

/-- A member carrying a value only for the name field, used to exercise the
placeholder policy for its missing flies field. -/
def memSOLO : Member :=
  { id := 9, cls := "A", member_name := some "SOLO",
    raw_value := .vnone, fields := [("name", .vstr "Solo")] }

/-- Witness for C10: projecting (name, flies) over a member that lacks
flies yields a row with both keys, flies mapped to None, and a
two-slot values_list row ending in None. -/
theorem c10_witness :
    ([[("name", Value.vstr "Solo"), ("flies", Value.vnone)]]
        : List (List (String × Value)))
      = [memSOLO].map (fun m => ["name", "flies"].map
          (fun f => (f, (dlookup (as_dict regAB m) f).getD Value.vnone)))
    ∧ ([[Value.vstr "Solo", Value.vnone]] : List (List Value))
      = [memSOLO].map (fun m => ["name", "flies"].map
          (fun f => (getattrM m f).getD Value.vnone))
    ∧ (∀ row ∈ ([[Value.vstr "Solo", Value.vnone]] : List (List Value)),
        row.length = (["name", "flies"] : List String).length)
    ∧ (∀ m ∈ [memSOLO], ∀ f ∈ (["name", "flies"] : List String),
        getattrM m f = none →
        (dlookup (as_dict regAB m) f).getD Value.vnone = Value.vnone) :=
  c10_projection_null_placeholder regAB modelA' [memSOLO] ["name", "flies"]
    [[("name", Value.vstr "Solo"), ("flies", Value.vnone)]]
    [[Value.vstr "Solo", Value.vnone]] (by decide) (by simp) rfl rfl

/-- The registry after declaring, in a two-field collection, a member whose
tuple carries three values (an arity mismatch). -/
def regM7 : Registry :=
  match define_model reg0 "M" none (some ["a", "b"])
      [("N", .raw (.vtuple [.vint 1, .vint 2, .vint 3]))] with
  | .ok r => r
  | .error _ => reg0

/-- The arity-mismatch collection's class state. -/
def modelM7 : Model := (lookupModel regM7 "M").getD emptyModel

/-- Counterexample to C7 as stated: a member declaration with three values
against two field names is NOT rejected — construction succeeds and the
extra value is silently dropped by zip truncation. -/
theorem c7_counterexample :
    define_model reg0 "M" none (some ["a", "b"])
        [("N", Decl.raw (.vtuple [.vint 1, .vint 2, .vint 3]))] = .ok regM7
    ∧ (dlookup modelM7.by_member_name "N").map (fun m => m.fields)
        = some [("a", Value.vint 1), ("b", Value.vint 2)] :=
  ⟨rfl, rfl⟩

/-- Amended C7: member construction never checks arity — for any tuple
declaration on a model with a non-empty resolved field_names, `__call__`
succeeds and the instance dict is `dict(zip(field_names, values))`, so
extra values are silently dropped and missing trailing fields left unset
(no construction error is raised). -/
theorem c7_amended (reg : Registry) (clsName : String) (model : Model)
    (memberName : String) (vs : List Value)
    (hup : str_upper memberName = memberName)
    (hm : lookupModel reg clsName = some model)
    (hfns : model.field_names ≠ []) :
    ∃ reg' mem, callModel reg clsName (.vtuple vs) memberName
        = .ok (reg', mem)
      ∧ mem.cls = clsName ∧ mem.member_name = some memberName
      ∧ mem.fields = zipDict model.field_names vs := by
  have hcond : (str_upper memberName != memberName) = false := by
    rw [hup]; exact bne_self_eq_false memberName
  have hm2 : lookupModel { reg with next_id := reg.next_id + 1 } clsName
      = some model := hm
  have hie : model.field_names.isEmpty = false := by
    cases h : model.field_names with
    | nil => exact absurd h hfns
    | cons a as => rfl
  unfold callModel
  rw [hcond]
  simp only [Bool.false_eq_true, if_false]
  rw [hm]
  simp only [hie, Bool.false_eq_true, if_false]
  unfold process_new_instance
  rw [hm2]
  simp only []
  by_cases hvs : vs.isEmpty
  · have hvs' : vs = [] := List.isEmpty_iff.mp hvs
    subst hvs'
    exact ⟨_, _, rfl, rfl, rfl, rfl⟩
  · have htr : pyTruthy (Value.vtuple vs) = true := by
      simp [pyTruthy, hvs]
    simp only [htr, isIterable, isStr, Bool.not_false, Bool.and_true,
      Bool.true_and, if_true, elemsOf]
    exact ⟨_, _, rfl, rfl, rfl, rfl⟩

/-- Witness for the amended C7: declaring a one-value member on the
two-field collection A succeeds, with only the first field set. -/
theorem c7_witness :
    ∃ reg' mem, callModel regA "A" (Value.vtuple [Value.vint 1]) "X"
        = .ok (reg', mem)
      ∧ mem.cls = "A" ∧ mem.member_name = some "X"
      ∧ mem.fields = zipDict modelA.field_names [Value.vint 1] :=
  c7_amended regA "A" modelA "X" [Value.vint 1] rfl rfl (by decide)

/-- The registry after a class body declaring the same uppercase name
twice. -/
def regM8 : Registry :=
  match define_model reg0 "M" none (some ["a"])
      [("N", .raw (.vtuple [.vint 1])), ("N", .raw (.vtuple [.vint 2]))] with
  | .ok r => r
  | .error _ => reg0

/-- The duplicate-declaration collection's class state. -/
def modelM8 : Model := (lookupModel regM8 "M").getD emptyModel

/-- Counterexample to C8 as stated: declaring the name N twice in one class
body does NOT fail — the namespace dict collapses the duplicate before the
metaclass runs, construction succeeds, and only the second value survives. -/
theorem c8_counterexample :
    define_model reg0 "M" none (some ["a"])
        [("N", Decl.raw (.vtuple [.vint 1])),
         ("N", Decl.raw (.vtuple [.vint 2]))] = .ok regM8
    ∧ (dlookup modelM8.by_member_name "N").map (fun m => m.raw_value)
        = some (Value.vtuple [Value.vint 2]) :=
  ⟨rfl, rfl⟩

/-- Amended C8: a duplicate uppercase declaration inside one class body is
silently collapsed by dict semantics — the later value replaces the earlier
one before member extraction, so construction behaves exactly as if only
the later declaration (at the earlier position) were present.  The
duplicate-name TypeError fires only when an uppercase attribute is assigned
on an already-constructed collection whose own dict already holds the
name. -/
theorem c8_amended :
    (∀ (reg : Registry) (name : String) (base : Option String)
       (fns : Option (List String)) (N : String) (d1 d2 : Decl)
       (rest : List (String × Decl)),
       define_model reg name base fns ((N, d1) :: (N, d2) :: rest)
         = define_model reg name base fns ((N, d2) :: rest))
    ∧ (∀ (reg : Registry) (clsName key : String) (d : Decl) (model : Model)
         (ex : Member), lookupModel reg clsName = some model →
         dlookup model.by_member_name key = some ex →
         setattr_upper reg clsName key d
           = .error (.typeError (clsName ++ "." ++ key
             ++ " already exists with value " ++ reprMemberShort ex))) := by
  constructor
  · intro reg name base fns N d1 d2 rest
    have hattrs : class_attrs ((N, d1) :: (N, d2) :: rest)
        = class_attrs ((N, d2) :: rest) := by
      simp [class_attrs, dinsert]
    unfold define_model raw_members_of
    rw [hattrs]
  · intro reg clsName key d model ex hlk hbmn
    unfold setattr_upper
    rw [hlk]
    show (match dlookup model.by_member_name key with
          | some existing => Except.error (PyErr.typeError (clsName ++ "."
              ++ key ++ " already exists with value "
              ++ reprMemberShort existing))
          | none =>
              match d with
              | Decl.mem inst => Except.map
                  (fun (p : Registry × Member) => p.1)
                  (process_new_instance reg clsName (some key) inst)
              | Decl.raw v => Except.map
                  (fun (p : Registry × Member) => p.1)
                  (callModel reg clsName v key)) = _
    rw [hbmn]

theorem probe_invalid (model : Model) :
    ∀ (cs : List (String × Value)) (acc : List Member) (f : String)
      (v : Value), (∀ p ∈ cs, p.1 ≠ member_name_attr) → (f, v) ∈ cs →
      dlookup model.indexes f = none → ¬ f ∈ model.field_names →
      ∃ msg, probe_aux model cs acc = .error (.invalidField msg)
  | [], _, _, _, _, hm, _, _ => absurd hm (by simp)
  | (g, w) :: rest, acc, f, v, hmn, hm, hidx, hfn => by
      have hgmn : g ≠ member_name_attr := hmn (g, w) (List.mem_cons_self _ _)
      cases hgidx : dlookup model.indexes g with
      | none =>
          by_cases hgfn : model.field_names.contains g
          · rw [probe_aux, probe_step_of_skip model g w hgmn hgidx hgfn]
            have hm' : (f, v) ∈ rest := by
              rcases List.mem_cons.mp hm with he | h'
              · exfalso
                have hfg : f = g := congrArg Prod.fst he
                exact hfn (hfg ▸ List.mem_of_elem_eq_true hgfn)
              · exact h'
            exact probe_invalid model rest acc f v
              (fun p hp => hmn p (List.mem_cons_of_mem _ hp)) hm' hidx hfn
          · rw [probe_aux, probe_step_of_invalid model g w hgmn hgidx hgfn]
            exact ⟨"Invalid field \x27" ++ g ++ "\x27", rfl⟩
      | some index =>
          rw [probe_aux, probe_step_of_indexed model g w index hgmn hgidx]
          have hm' : (f, v) ∈ rest := by
            rcases List.mem_cons.mp hm with he | h'
            · exfalso
              have hfg : f = g := congrArg Prod.fst he
              rw [hfg, hgidx] at hidx
              exact absurd hidx (by simp)
            · exact h'
          exact probe_invalid model rest _ f v
            (fun p hp => hmn p (List.mem_cons_of_mem _ hp)) hm' hidx hfn

theorem probe_all_ok (model : Model) :
    ∀ (cs : List (String × Value)) (acc : List Member),
      (∀ p ∈ cs, p.1 ≠ member_name_attr) →
      (∀ p ∈ cs, p.1 ∈ model.field_names
        ∨ (dlookup model.indexes p.1).isSome) →
      ∃ s, probe_aux model cs acc = .ok s
  | [], acc, _, _ => ⟨acc, rfl⟩
  | (g, w) :: rest, acc, hmn, hgood => by
      have hgmn : g ≠ member_name_attr := hmn (g, w) (List.mem_cons_self _ _)
      cases hgidx : dlookup model.indexes g with
      | none =>
          have hgfn : model.field_names.contains g := by
            rcases hgood (g, w) (List.mem_cons_self _ _) with hc | hc
            · exact List.elem_eq_true_of_mem hc
            · rw [hgidx] at hc; exact absurd hc (by simp)
          rw [probe_aux, probe_step_of_skip model g w hgmn hgidx hgfn]
          exact probe_all_ok model rest acc
            (fun p hp => hmn p (List.mem_cons_of_mem _ hp))
            (fun p hp => hgood p (List.mem_cons_of_mem _ hp))
      | some index =>
          rw [probe_aux, probe_step_of_indexed model g w index hgmn hgidx]
          exact probe_all_ok model rest _
            (fun p hp => hmn p (List.mem_cons_of_mem _ hp))
            (fun p hp => hgood p (List.mem_cons_of_mem _ hp))

/-- Claim C5: a criteria field (other than the member-name field) that is
neither in the index map nor among the declared field names raises the
invalid-field error; a declared-but-unindexed field is skipped during index
probing — no error, the query completes — and is still applied during
exact-match verification, so every returned member satisfies it too. -/
theorem c5_unindexed_vs_invalid (model : Model)
    (crit : List (String × Value)) (f : String) (v : Value)
    (hmn : ∀ p ∈ crit, p.1 ≠ member_name_attr) :
    ((f, v) ∈ crit → dlookup model.indexes f = none →
      ¬ f ∈ model.field_names →
      ∃ msg, filter model crit = .error (.invalidField msg))
    ∧ ((∀ p ∈ crit, p.1 ∈ model.field_names
          ∨ (dlookup model.indexes p.1).isSome) →
      ∃ l, filter model crit = .ok l
        ∧ ∀ mem ∈ l, ∀ p ∈ crit,
            ∃ w, getattrM mem p.1 = some w ∧ pyEq w p.2 = true) := by
  constructor
  · intro hm hidx hfn
    have hne : crit ≠ [] := by
      intro hc; rw [hc] at hm; exact absurd hm (by simp)
    obtain ⟨msg, hmsg⟩ := probe_invalid model (sorted_criteria crit) [] f v
      (by rw [sorted_no_member_name crit hmn]; exact hmn)
      (by rw [sorted_no_member_name crit hmn]; exact hm) hidx hfn
    refine ⟨msg, ?_⟩
    unfold filter
    rw [if_neg (by simpa using hne)]
    have hg : get_index_search_results model crit
        = .error (.invalidField msg) := hmsg
    rw [hg]
  · intro hgood
    cases hc : crit with
    | nil =>
        exact ⟨all_members model, by unfold filter; simp, by simp⟩
    | cons c cs =>
        rw [← hc]
        have hne : crit ≠ [] := by rw [hc]; simp
        obtain ⟨s, hs⟩ := probe_all_ok model (sorted_criteria crit) []
          (by rw [sorted_no_member_name crit hmn]; exact hmn)
          (by rw [sorted_no_member_name crit hmn]; exact hgood)
        refine ⟨dedupe_by_id (s.filter (verify_member model crit)) [], ?_, ?_⟩
        · unfold filter
          rw [if_neg (by simpa using hne)]
          have hg : get_index_search_results model crit = .ok s := hs
          rw [hg]
        · intro mem hmem p hp
          have hmem' : mem ∈ s.filter (verify_member model crit) :=
            (dedupe_sublist _ _).subset hmem
          exact verify_sound_no_mn model crit mem hmn
            (List.mem_filter.mp hmem').2 p hp

theorem probe_single (model : Model) (f : String) (v : Value)
    (idx : List (Int × List Member)) (hf : f ≠ member_name_attr)
    (hidx : dlookup model.indexes f = some idx) :
    get_index_search_results model [(f, v)]
      = .ok ((ilookup idx (index_key_for_value v)).getD []) := by
  unfold get_index_search_results
  rw [sorted_no_member_name [(f, v)] (by simpa using hf)]
  rw [probe_aux, probe_step_of_indexed model f v idx hf hidx]
  rfl

/-- Claim C4 (round-trip): for a member m present in the index bucket of
field f at the key of its own value, filter(f=m.f) includes m; and when no
other member of the collection carries an f value equal to m's,
get(f=m.f) returns exactly m. -/
theorem c4_round_trip (model : Model) (f : String) (vf : Value) (m : Member)
    (idx : List (Int × List Member)) (bucket : List Member)
    (hcoh : ModelCoherent model) (hf : f ≠ member_name_attr)
    (hidx : dlookup model.indexes f = some idx)
    (hbucket : ilookup idx (index_key_for_value vf) = some bucket)
    (hm : m ∈ bucket) (hget : getattrM m f = some vf) :
    (∃ l, filter model [(f, vf)] = .ok l ∧ m ∈ l)
    ∧ ((∀ x ∈ bucket, x ∈ all_members model) →
       (∀ x ∈ all_members model, x.id ≠ m.id →
          (getattrM x f).elim false (fun w => pyEq w vf) = false) →
       get model false [(f, vf)] = .ok (some m)) := by
  have hsurf : get_index_search_results model [(f, vf)] = .ok bucket := by
    rw [probe_single model f vf idx hf hidx, hbucket]
    rfl
  have hverify : verify_member model [(f, vf)] m = true := by
    unfold verify_member
    simp [hf, hget, pyEq_refl]
  have hfil : filter model [(f, vf)]
      = .ok (dedupe_by_id (bucket.filter (verify_member model [(f, vf)])) []) := by
    unfold filter
    rw [if_neg (by simp), hsurf]
  have hocc : ∀ x ∈ bucket, x ∈ occurrences model := fun x hx =>
    occ_index model f idx (index_key_for_value vf) bucket x hidx hbucket hx
  have hmocc : m ∈ occurrences model := hocc m hm
  have hmf : m ∈ bucket.filter (verify_member model [(f, vf)]) :=
    List.mem_filter.mpr ⟨hm, hverify⟩
  constructor
  · refine ⟨_, hfil, ?_⟩
    refine dedupe_mem_of _ [] m hmf ?_ (by simp)
    intro y hy hyid
    exact hcoh.1 y (hocc y (List.mem_filter.mp hy).1) m hmocc hyid
  · intro hsub huniq
    have hallm : ∀ y ∈ bucket.filter (verify_member model [(f, vf)]), y = m := by
      intro y hy
      obtain ⟨hyb, hyv⟩ := List.mem_filter.mp hy
      obtain ⟨w, hw, hpe⟩ := verify_sound_no_mn model [(f, vf)] y
        (by simpa using hf) hyv (f, vf) (List.mem_cons_self _ _)
      have hyid : y.id = m.id := by
        by_contra hne
        have hfls : pyEq w vf = false := by
          have h2 := huniq y (hsub y hyb) hne
          rw [hw] at h2
          simpa using h2
        rw [hpe] at hfls
        exact absurd hfls (by simp)
      exact hcoh.1 y (hocc y hyb) m hmocc hyid
    have hne : bucket.filter (verify_member model [(f, vf)]) ≠ [] := by
      intro hc
      rw [hc] at hmf
      exact absurd hmf (by simp)
    have hl : filter model [(f, vf)] = .ok [m] := by
      rw [hfil, dedupe_all_eq _ m hne hallm]
    unfold get
    rw [hl]

/-- The name index of A after B was defined. -/
def idxC4 : List (Int × List Member) :=
  (dlookup modelA'.indexes "name").getD []

/-- The bucket of the name index at the key of the value Eagle. -/
def bucketC4 : List Member :=
  (ilookup idxC4 (index_key_for_value (Value.vstr "Eagle"))).getD []

/-- Witness for C4: EAGLE round-trips through A's name index — filtering on
name=Eagle includes it, and since no other member is named Eagle, get
returns exactly it. -/
theorem c4_witness :
    (∃ l, filter modelA' [("name", Value.vstr "Eagle")] = .ok l
      ∧ memEAGLE ∈ l)
    ∧ get modelA' false [("name", Value.vstr "Eagle")]
        = .ok (some memEAGLE) :=
  ⟨(c4_round_trip modelA' "name" (Value.vstr "Eagle") memEAGLE idxC4
      bucketC4 (by decide) (by decide) rfl rfl (by decide) rfl).1,
   (c4_round_trip modelA' "name" (Value.vstr "Eagle") memEAGLE idxC4
      bucketC4 (by decide) (by decide) rfl rfl (by decide) rfl).2
      (by decide) (by decide)⟩

/-- The registry holding an empty two-field collection E (its fields are
declared but, with no members, no index was ever created). -/
def regE : Registry :=
  match define_model reg0 "E" none (some ["a", "b"]) [] with
  | .ok r => r
  | .error _ => reg0

/-- The empty collection's class state. -/
def modelE : Model := (lookupModel regE "E").getD emptyModel

/-- Witness for C5: filtering A on the undeclared field bogus raises
invalid-field, while filtering the empty collection E on its declared but
unindexed field a succeeds. -/
theorem c5_witness :
    (∃ msg, filter modelA [("bogus", Value.vint 0)]
        = .error (.invalidField msg))
    ∧ (∃ l, filter modelE [("a", Value.vint 1)] = .ok l
        ∧ ∀ mem ∈ l, ∀ p ∈ ([("a", Value.vint 1)] : List (String × Value)),
            ∃ w, getattrM mem p.1 = some w ∧ pyEq w p.2 = true) :=
  ⟨(c5_unindexed_vs_invalid modelA [("bogus", Value.vint 0)] "bogus"
      (Value.vint 0) (by decide)).1 (by simp) rfl (by decide),
   (c5_unindexed_vs_invalid modelE [("a", Value.vint 1)] "a"
      (Value.vint 1) (by decide)).2 (by decide)⟩

theorem dinsert_length_of_lookup {κ β : Type} [DecidableEq κ] :
    ∀ (d : List (κ × β)) (k : κ) (v v' : β), dlookup d k = some v →
      (dinsert d k v').length = d.length
  | [], k, v, v', h => by simp [dlookup] at h
  | (k1, v1) :: rest, k, v, v', h => by
      by_cases hk : k1 = k
      · simp [dinsert, hk]
      · simp only [dlookup, if_neg hk] at h
        simp only [dinsert, if_neg hk, List.length_cons]
        rw [dinsert_length_of_lookup rest k v v' h]

/-- The parts of a model that indexing never touches. -/
def SameCore (m1 m2 : Model) : Prop :=
  m1.name = m2.name ∧ m1.base = m2.base ∧ m1.field_names = m2.field_names
  ∧ m1.by_id = m2.by_id ∧ m1.by_member_name = m2.by_member_name
  ∧ m1.submodels = m2.submodels

theorem index_step_core (inst : Member) (md : Model) (attr : String) :
    SameCore (index_step inst md attr) md := by
  unfold index_step SameCore
  cases getattrM inst attr <;> simp

theorem foldl_index_step_core (inst : Member) :
    ∀ (l : List String) (md : Model),
      SameCore (l.foldl (index_step inst) md) md
  | [], md => ⟨rfl, rfl, rfl, rfl, rfl, rfl⟩
  | attr :: rest, md => by
      simp only [List.foldl_cons]
      have h1 := index_step_core inst md attr
      have h2 := foldl_index_step_core inst rest (index_step inst md attr)
      exact ⟨h2.1.trans h1.1, h2.2.1.trans h1.2.1,
        h2.2.2.1.trans h1.2.2.1, h2.2.2.2.1.trans h1.2.2.2.1,
        h2.2.2.2.2.1.trans h1.2.2.2.2.1, h2.2.2.2.2.2.trans h1.2.2.2.2.2⟩

theorem index_instance_core (md : Model) (inst : Member) :
    SameCore (index_instance md inst) md :=
  foldl_index_step_core inst _ md

theorem lookupModel_updateModel_self (reg : Registry) (n : String)
    (m : Model) : lookupModel (updateModel reg n m) n = some m :=
  dlookup_dinsert reg.models n m

theorem lookupModel_updateModel_ne (reg : Registry) (n x : String)
    (m : Model) (h : x ≠ n) :
    lookupModel (updateModel reg n m) x = lookupModel reg x :=
  dlookup_dinsert_ne reg.models n x m h

theorem pni_register_effects (md : Model) (mn : Option String) (i : Member) :
    (pni_register md mn i).name = md.name
    ∧ (pni_register md mn i).base = md.base
    ∧ (pni_register md mn i).field_names = md.field_names
    ∧ (pni_register md mn i).submodels = md.submodels
    ∧ (pni_register md mn i).by_id = ninsert md.by_id i.id i
    ∧ (pni_register md mn i).by_member_name = pni_byname md mn i := by
  have h := index_instance_core
    { md with by_id := ninsert md.by_id i.id i,
              by_member_name := pni_byname md mn i } i
  exact ⟨h.1, h.2.1, h.2.2.1, h.2.2.2.2.2, h.2.2.2.1, h.2.2.2.2.1⟩

theorem pni_ok_effects (reg : Registry) (clsName : String)
    (mn : Option String) (inst : Member) (reg' : Registry) (inst' : Member)
    (h : process_new_instance reg clsName mn inst = .ok (reg', inst'))
    (md : Model) (hmd : lookupModel reg clsName = some md) :
    inst' = { inst with member_name := mn }
    ∧ reg'.next_id = reg.next_id
    ∧ (∀ x, x ≠ clsName → lookupModel reg' x = lookupModel reg x)
    ∧ ∃ md', lookupModel reg' clsName = some md'
        ∧ md'.name = md.name ∧ md'.base = md.base
        ∧ md'.field_names = md.field_names ∧ md'.submodels = md.submodels
        ∧ md'.by_id = ninsert md.by_id inst'.id inst'
        ∧ md'.by_member_name = pni_byname md mn inst'
        ∧ reg'.models.length = reg.models.length := by
  unfold process_new_instance at h
  rw [hmd] at h
  simp only [] at h
  by_cases hc : pni_clash inst.member_name mn = true
  · rw [if_pos hc] at h
    exact absurd h (by simp)
  · rw [if_neg hc] at h
    simp only [Except.ok.injEq, Prod.mk.injEq] at h
    obtain ⟨hreg, hinst⟩ := h
    have he := pni_register_effects md mn { inst with member_name := mn }
    refine ⟨hinst.symm, ?_, ?_, ?_⟩
    · rw [← hreg]; rfl
    · intro x hx
      rw [← hreg]
      exact lookupModel_updateModel_ne reg clsName x _ hx
    · refine ⟨pni_register md mn { inst with member_name := mn },
        by rw [← hreg]; exact lookupModel_updateModel_self _ _ _, ?_⟩
      rw [← hinst]
      refine ⟨he.1, he.2.1, he.2.2.1, he.2.2.2.1, he.2.2.2.2.1,
        he.2.2.2.2.2, ?_⟩
      rw [← hreg]
      exact dinsert_length_of_lookup reg.models clsName md _ hmd

theorem call_ok_effects (reg : Registry) (clsName : String) (rv : Value)
    (mn : String) (reg' : Registry) (inst' : Member)
    (h : callModel reg clsName rv mn = .ok (reg', inst'))
    (md : Model) (hmd : lookupModel reg clsName = some md) :
    inst'.id = reg.next_id ∧ inst'.cls = clsName
    ∧ inst'.member_name = some mn
    ∧ reg'.next_id = reg.next_id + 1
    ∧ (∀ x, x ≠ clsName → lookupModel reg' x = lookupModel reg x)
    ∧ ∃ md', lookupModel reg' clsName = some md'
        ∧ md'.name = md.name ∧ md'.base = md.base
        ∧ md'.field_names = md.field_names ∧ md'.submodels = md.submodels
        ∧ md'.by_id = ninsert md.by_id inst'.id inst'
        ∧ md'.by_member_name = dinsert md.by_member_name mn inst'
        ∧ reg'.models.length = reg.models.length := by
  unfold callModel at h
  by_cases hup : (str_upper mn != mn) = true
  · rw [if_pos hup] at h
    exact absurd h (by simp)
  · rw [if_neg hup] at h
    rw [hmd] at h
    simp only [] at h
    by_cases hie : md.field_names.isEmpty = true
    · rw [if_pos hie] at h
      exact absurd h (by simp)
    · rw [if_neg hie] at h
      have hmd2 : lookupModel { reg with next_id := reg.next_id + 1 }
          clsName = some md := hmd
      obtain ⟨hinst, hnid, hoth, md', hlk', hname, hbase, hfns, hsub,
        hbyid, hbmn, hlen⟩ := pni_ok_effects _ clsName (some mn) _ reg'
          inst' h md hmd2
      refine ⟨by rw [hinst], by rw [hinst], by rw [hinst], hnid,
        fun x hx => hoth x hx, md', hlk', hname, hbase, hfns, hsub,
        hbyid, hbmn, hlen⟩

theorem setattr_raw_effects (reg : Registry) (clsName key : String)
    (v : Value) (reg' : Registry)
    (h : setattr_upper reg clsName key (.raw v) = .ok reg')
    (md : Model) (hmd : lookupModel reg clsName = some md) :
    dlookup md.by_member_name key = none
    ∧ reg'.next_id = reg.next_id + 1
    ∧ (∀ x, x ≠ clsName → lookupModel reg' x = lookupModel reg x)
    ∧ ∃ inst', inst'.id = reg.next_id ∧ inst'.cls = clsName
        ∧ inst'.member_name = some key
        ∧ ∃ md', lookupModel reg' clsName = some md'
            ∧ md'.name = md.name ∧ md'.base = md.base
            ∧ md'.field_names = md.field_names
            ∧ md'.submodels = md.submodels
            ∧ md'.by_id = ninsert md.by_id inst'.id inst'
            ∧ md'.by_member_name = dinsert md.by_member_name key inst'
            ∧ reg'.models.length = reg.models.length := by
  unfold setattr_upper at h
  rw [hmd] at h
  simp only [] at h
  cases hbmn : dlookup md.by_member_name key with
  | some ex =>
      rw [hbmn] at h
      exact absurd h (by simp)
  | none =>
      rw [hbmn] at h
      cases hcall : callModel reg clsName v key with
      | error e =>
          rw [hcall] at h
          exact absurd h (by simp [Except.map])
      | ok pr =>
          rw [hcall] at h
          simp only [Except.map, Except.ok.injEq] at h
          obtain ⟨r1, i1⟩ := pr
          obtain ⟨hid, hcls, hmn, hnid, hoth, md', hlk', hname, hbase,
            hfns, hsub, hbyid, hbmn', hlen⟩ :=
            call_ok_effects reg clsName v key r1 i1 hcall md hmd
          subst h
          exact ⟨rfl, hnid, hoth, i1, hid, hcls, hmn, md', hlk', hname,
            hbase, hfns, hsub, hbyid, hbmn', hlen⟩

theorem setattr_mem_effects (reg : Registry) (clsName key : String)
    (inst : Member) (reg' : Registry)
    (h : setattr_upper reg clsName key (.mem inst) = .ok reg')
    (md : Model) (hmd : lookupModel reg clsName = some md) :
    dlookup md.by_member_name key = none
    ∧ reg'.next_id = reg.next_id
    ∧ (∀ x, x ≠ clsName → lookupModel reg' x = lookupModel reg x)
    ∧ ∃ md', lookupModel reg' clsName = some md'
        ∧ md'.name = md.name ∧ md'.base = md.base
        ∧ md'.field_names = md.field_names ∧ md'.submodels = md.submodels
        ∧ md'.by_id = ninsert md.by_id inst.id
            { inst with member_name := some key }
        ∧ md'.by_member_name = dinsert md.by_member_name key
            { inst with member_name := some key }
        ∧ reg'.models.length = reg.models.length := by
  unfold setattr_upper at h
  rw [hmd] at h
  simp only [] at h
  cases hbmn : dlookup md.by_member_name key with
  | some ex =>
      rw [hbmn] at h
      exact absurd h (by simp)
  | none =>
      rw [hbmn] at h
      cases hpni : process_new_instance reg clsName (some key) inst with
      | error e =>
          rw [hpni] at h
          exact absurd h (by simp [Except.map])
      | ok pr =>
          rw [hpni] at h
          simp only [Except.map, Except.ok.injEq] at h
          obtain ⟨r1, i1⟩ := pr
          obtain ⟨hinst, hnid, hoth, md', hlk', hname, hbase, hfns, hsub,
            hbyid, hbmn', hlen⟩ :=
            pni_ok_effects reg clsName (some key) inst r1 i1 hpni md hmd
          subst h
          rw [hinst] at hbyid hbmn'
          exact ⟨rfl, hnid, hoth, md', hlk', hname, hbase, hfns, hsub,
            hbyid, hbmn', hlen⟩

theorem member_update_self (m : Member) (k : String)
    (h : m.member_name = some k) :
    { m with member_name := some k } = m := by
  cases m
  simp_all

/-- The structural identity of a model (its name, base link and resolved
field names), which no registration step ever rewrites. -/
def shapeOf (reg : Registry) (x : String) :
    Option (String × Option String × List String) :=
  (lookupModel reg x).map (fun m => (m.name, m.base, m.field_names))

/-- Two registries with the same model population and identical structural
identities (member stores and indexes may differ). -/
def regShapeEq (r1 r2 : Registry) : Prop :=
  r1.models.length = r2.models.length ∧ ∀ x, shapeOf r1 x = shapeOf r2 x

theorem regShapeEq_refl (r : Registry) : regShapeEq r r := ⟨rfl, fun _ => rfl⟩

theorem regShapeEq_trans {r1 r2 r3 : Registry} (h12 : regShapeEq r1 r2)
    (h23 : regShapeEq r2 r3) : regShapeEq r1 r3 :=
  ⟨h12.1.trans h23.1, fun x => (h12.2 x).trans (h23.2 x)⟩

theorem setattr_shapeEq (reg : Registry) (c k : String) (d : Decl)
    (reg' : Registry) (h : setattr_upper reg c k d = .ok reg') :
    regShapeEq reg' reg := by
  have hex : ∃ md, lookupModel reg c = some md := by
    unfold setattr_upper at h
    cases hl : lookupModel reg c with
    | none => rw [hl] at h; exact absurd h (by simp)
    | some md => exact ⟨md, rfl⟩
  obtain ⟨md, hmd⟩ := hex
  cases d with
  | raw v =>
      obtain ⟨_, _, hoth, _, _, _, _, md', hlk', hname, hbase, hfns, _, _,
        _, hlen⟩ := setattr_raw_effects reg c k v reg' h md hmd
      refine ⟨hlen, fun x => ?_⟩
      by_cases hx : x = c
      · subst hx
        unfold shapeOf
        rw [hlk', hmd]
        simp [hname, hbase, hfns]
      · unfold shapeOf
        rw [hoth x hx]
  | mem inst =>
      obtain ⟨_, _, hoth, md', hlk', hname, hbase, hfns, _, _, _, hlen⟩ :=
        setattr_mem_effects reg c k inst reg' h md hmd
      refine ⟨hlen, fun x => ?_⟩
      by_cases hx : x = c
      · subst hx
        unfold shapeOf
        rw [hlk', hmd]
        simp [hname, hbase, hfns]
      · unfold shapeOf
        rw [hoth x hx]

theorem foldlM_shapeEq {α : Type} (f : Registry → α → Except PyErr Registry)
    (hf : ∀ r a r', f r a = .ok r' → regShapeEq r' r) :
    ∀ (l : List α) (r r' : Registry), l.foldlM f r = .ok r' →
      regShapeEq r' r
  | [], r, r', h => by
      simp only [List.foldlM_nil] at h
      cases h
      exact regShapeEq_refl r
  | a :: rest, r, r', h => by
      rw [List.foldlM_cons] at h
      obtain ⟨rmid, h1, h2⟩ := except_bind_ok _ _ _ h
      exact regShapeEq_trans (foldlM_shapeEq f hf rest rmid r' h2)
        (hf r a rmid h1)

theorem propagate_shapeEq (reg : Registry) (clsName parent : String)
    (reg' : Registry) (h : propagate_to reg clsName parent = .ok reg') :
    regShapeEq reg' reg := by
  unfold propagate_to at h
  obtain ⟨rmid, h1, h2⟩ := except_bind_ok _ _ _ h
  have hs1 : regShapeEq rmid reg := by
    refine foldlM_shapeEq _ ?_ _ reg rmid h1
    intro r mem r' hr
    cases hmn : mem.member_name with
    | some mn =>
        rw [hmn] at hr
        exact setattr_shapeEq r parent mn (.mem mem) r' hr
    | none =>
        rw [hmn] at hr
        cases hr
        exact regShapeEq_refl r
  have hs2 : regShapeEq reg' rmid := by
    cases hpm : lookupModel rmid parent with
    | none =>
        rw [hpm] at h2
        cases h2
        exact regShapeEq_refl _
    | some pm =>
        rw [hpm] at h2
        simp only [pure, Except.pure, Except.ok.injEq] at h2
        subst h2
        refine ⟨dinsert_length_of_lookup rmid.models parent pm _ hpm,
          fun x => ?_⟩
        by_cases hx : x = parent
        · subst hx
          unfold shapeOf
          rw [lookupModel_updateModel_self, hpm]
          rfl
        · unfold shapeOf
          rw [lookupModel_updateModel_ne _ _ _ _ hx]
  exact regShapeEq_trans hs2 hs1

theorem populate_shapeEq (reg : Registry) (clsName : String)
    (reg' : Registry) (h : populate_ancestors reg clsName = .ok reg') :
    regShapeEq reg' reg := by
  unfold populate_ancestors at h
  exact foldlM_shapeEq _ (fun r p r' hr => propagate_shapeEq r clsName p r' hr)
    _ reg reg' h

theorem base_chain_aux_congr (r1 r2 : Registry)
    (hs : ∀ x, shapeOf r1 x = shapeOf r2 x) :
    ∀ (fuel : Nat) (b : Option String),
      base_chain_aux fuel r1 b = base_chain_aux fuel r2 b
  | 0, b => by cases b <;> rfl
  | _ + 1, none => rfl
  | fuel + 1, some b => by
      have h := hs b
      unfold shapeOf at h
      cases h1 : lookupModel r1 b with
      | none =>
          cases h2 : lookupModel r2 b with
          | none => simp [base_chain_aux, h1, h2]
          | some m2 => rw [h1, h2] at h; simp at h
      | some m1 =>
          cases h2 : lookupModel r2 b with
          | none => rw [h1, h2] at h; simp at h
          | some m2 =>
              rw [h1, h2] at h
              simp only [Option.map_some', Option.some_inj,
                Prod.mk.injEq] at h
              simp only [base_chain_aux, h1, h2]
              rw [h.2.1, base_chain_aux_congr r1 r2 hs fuel m2.base]

theorem mem_dinsert_inv {κ β : Type} [DecidableEq κ] :
    ∀ (d : List (κ × β)) (k : κ) (v : β) (q : κ × β),
      q ∈ dinsert d k v → q = (k, v) ∨ q ∈ d
  | [], k, v, q, h => by
      simp only [dinsert, List.mem_singleton] at h
      exact Or.inl h
  | (k1, v1) :: rest, k, v, q, h => by
      by_cases hk : k1 = k
      · simp only [dinsert, if_pos hk, List.mem_cons] at h
        rcases h with he | hm
        · exact Or.inl he
        · exact Or.inr (List.mem_cons_of_mem _ hm)
      · simp only [dinsert, if_neg hk, List.mem_cons] at h
        rcases h with he | hm
        · exact Or.inr (he ▸ List.mem_cons_self _ _)
        · rcases mem_dinsert_inv rest k v q hm with h1 | h2
          · exact Or.inl h1
          · exact Or.inr (List.mem_cons_of_mem _ h2)

theorem dlookup_dinsert_inv {κ β : Type} [DecidableEq κ]
    (d : List (κ × β)) (k k2 : κ) (v : β) :
    dlookup (dinsert d k v) k2
      = if k2 = k then some v else dlookup d k2 := by
  by_cases h : k2 = k
  · rw [if_pos h, h]
    exact dlookup_dinsert d k v
  · rw [if_neg h]
    exact dlookup_dinsert_ne d k k2 v h

theorem dinsert_keys_nodup {κ β : Type} [DecidableEq κ] :
    ∀ (d : List (κ × β)) (k : κ) (v : β),
      (d.map (fun p => p.1)).Nodup →
      ((dinsert d k v).map (fun p => p.1)).Nodup
  | [], k, v, _ => by simp [dinsert]
  | (k1, v1) :: rest, k, v, h => by
      by_cases hk : k1 = k
      · simp only [dinsert, if_pos hk, List.map_cons]
        simp only [List.map_cons, List.nodup_cons] at h
        refine List.nodup_cons.mpr ⟨?_, h.2⟩
        rw [← hk]
        exact h.1
      · simp only [dinsert, if_neg hk, List.map_cons]
        simp only [List.map_cons, List.nodup_cons] at h
        refine List.nodup_cons.mpr ⟨?_, dinsert_keys_nodup rest k v h.2⟩
        intro hc
        rcases List.mem_map.mp hc with ⟨q, hq, hq1⟩
        rcases mem_dinsert_inv rest k v q hq with he | hm
        · exact hk (((congrArg Prod.fst he).symm.trans hq1).symm)
        · exact h.1 (List.mem_map.mpr ⟨q, hm, hq1⟩)

theorem mem_class_attrs_aux {κ : Type} [DecidableEq κ] {β : Type} :
    ∀ (body : List (κ × β)) (acc : List (κ × β)) (q : κ × β),
      q ∈ body.foldl (fun d p => dinsert d p.1 p.2) acc →
      q ∈ acc ∨ q ∈ body
  | [], acc, q, h => Or.inl h
  | (k, v) :: rest, acc, q, h => by
      simp only [List.foldl_cons] at h
      rcases mem_class_attrs_aux rest (dinsert acc k v) q h with h1 | h2
      · rcases mem_dinsert_inv acc k v q h1 with he | hm
        · exact Or.inr (he ▸ List.mem_cons_self _ _)
        · exact Or.inl hm
      · exact Or.inr (List.mem_cons_of_mem _ h2)

theorem mem_class_attrs (body : List (String × Decl)) (q : String × Decl)
    (h : q ∈ class_attrs body) : q ∈ body := by
  rcases mem_class_attrs_aux body [] q h with h1 | h2
  · exact absurd h1 (by simp)
  · exact h2

theorem class_attrs_keys_nodup_aux {κ : Type} [DecidableEq κ] {β : Type} :
    ∀ (body : List (κ × β)) (acc : List (κ × β)),
      (acc.map (fun p => p.1)).Nodup →
      ((body.foldl (fun d p => dinsert d p.1 p.2) acc).map
        (fun p => p.1)).Nodup
  | [], acc, h => h
  | (k, v) :: rest, acc, h => by
      simp only [List.foldl_cons]
      exact class_attrs_keys_nodup_aux rest (dinsert acc k v)
        (dinsert_keys_nodup acc k v h)

theorem raw_members_keys_nodup (body : List (String × Decl)) :
    ((raw_members_of body).map (fun p => p.1)).Nodup := by
  unfold raw_members_of
  have h1 : ((class_attrs body).map (fun p => p.1)).Nodup :=
    class_attrs_keys_nodup_aux body [] (by simp)
  refine List.Nodup.sublist ?_ h1
  exact List.Sublist.map _ (List.filter_sublist _)

/-- The member `mem` is attached on model `c` under the name `n`: the class
attribute resolves to it and it is in the model's own member store. -/
def Attached (reg : Registry) (c n : String) (mem : Member) : Prop :=
  ∃ md, lookupModel reg c = some md
    ∧ dlookup md.by_member_name n = some mem
    ∧ (mem.id, mem) ∈ md.by_id

theorem attached_congr (r r' : Registry) (c n : String) (mem : Member)
    (h : lookupModel r' c = lookupModel r c) (ha : Attached r c n mem) :
    Attached r' c n mem := by
  obtain ⟨md, hmd, h1, h2⟩ := ha
  exact ⟨md, h ▸ hmd, h1, h2⟩

theorem setattr_mem_attach (reg : Registry) (c k : String) (mem : Member)
    (reg' : Registry) (h : setattr_upper reg c k (.mem mem) = .ok reg')
    (hname : mem.member_name = some k) : Attached reg' c k mem := by
  have hex : ∃ md, lookupModel reg c = some md := by
    unfold setattr_upper at h
    cases hl : lookupModel reg c with
    | none => rw [hl] at h; exact absurd h (by simp)
    | some md => exact ⟨md, rfl⟩
  obtain ⟨md, hmd⟩ := hex
  obtain ⟨hnone, _, _, md', hlk', _, _, _, _, hbyid, hbmn, _⟩ :=
    setattr_mem_effects reg c k mem reg' h md hmd
  rw [member_update_self mem k hname] at hbyid hbmn
  refine ⟨md', hlk', ?_, ?_⟩
  · rw [hbmn]
    exact dlookup_dinsert _ _ _
  · rw [hbyid]
    exact mem_dinsert_self _ _ _

theorem setattr_mem_attached_preserve (reg : Registry) (c k : String)
    (inst : Member) (reg' : Registry) (n : String) (mem : Member)
    (h : setattr_upper reg c k (.mem inst) = .ok reg')
    (hatt : Attached reg c n mem) (hid : inst.id ≠ mem.id) :
    Attached reg' c n mem := by
  obtain ⟨md, hmd, hbmn, hbyid⟩ := hatt
  obtain ⟨hnone, _, _, md', hlk', _, _, _, _, hbyid', hbmn', _⟩ :=
    setattr_mem_effects reg c k inst reg' h md hmd
  have hkn : n ≠ k := by
    intro hc
    rw [hc, hnone] at hbmn
    exact absurd hbmn (by simp)
  refine ⟨md', hlk', ?_, ?_⟩
  · rw [hbmn', dlookup_dinsert_ne _ _ _ _ hkn]
    exact hbmn
  · rw [hbyid']
    exact mem_dinsert_of_ne _ _ _ _ _ hbyid (fun hc => hid hc.symm)

theorem setattr_ok_lookup (reg : Registry) (c k : String) (d : Decl)
    (reg' : Registry) (h : setattr_upper reg c k d = .ok reg') :
    ∃ md, lookupModel reg c = some md := by
  unfold setattr_upper at h
  cases hl : lookupModel reg c with
  | none => rw [hl] at h; exact absurd h (by simp)
  | some md => exact ⟨md, rfl⟩

theorem setattr_other (reg : Registry) (c k : String) (d : Decl)
    (reg' : Registry) (x : String) (h : setattr_upper reg c k d = .ok reg')
    (hx : x ≠ c) : lookupModel reg' x = lookupModel reg x := by
  obtain ⟨md, hmd⟩ := setattr_ok_lookup reg c k d reg' h
  cases d with
  | raw v =>
      obtain ⟨_, _, hoth, _⟩ := setattr_raw_effects reg c k v reg' h md hmd
      exact hoth x hx
  | mem inst =>
      obtain ⟨_, _, hoth, _⟩ := setattr_mem_effects reg c k inst reg' h md hmd
      exact hoth x hx

theorem foldlM_preserve_lookup {α : Type}
    (f : Registry → α → Except PyErr Registry) (x : String) :
    ∀ (l : List α) (r r' : Registry),
      (∀ r1 a r2, a ∈ l → f r1 a = .ok r2 →
        lookupModel r2 x = lookupModel r1 x) →
      l.foldlM f r = .ok r' → lookupModel r' x = lookupModel r x
  | [], r, r', _, h => by
      simp only [List.foldlM_nil] at h
      cases h
      rfl
  | a :: rest, r, r', hf, h => by
      rw [List.foldlM_cons] at h
      obtain ⟨rmid, h1, h2⟩ := except_bind_ok _ _ _ h
      rw [foldlM_preserve_lookup f x rest rmid r'
        (fun r1 b r2 hb => hf r1 b r2 (List.mem_cons_of_mem _ hb)) h2]
      exact hf r a rmid (List.mem_cons_self _ _) h1

theorem propagate_to_other (reg : Registry) (c p : String)
    (reg' : Registry) (x : String) (h : propagate_to reg c p = .ok reg')
    (hx : x ≠ p) : lookupModel reg' x = lookupModel reg x := by
  unfold propagate_to at h
  obtain ⟨rmid, h1, h2⟩ := except_bind_ok _ _ _ h
  have hl1 : lookupModel rmid x = lookupModel reg x := by
    refine foldlM_preserve_lookup _ x _ reg rmid ?_ h1
    intro r1 m r2 _ hr
    cases hmn : m.member_name with
    | some mn =>
        rw [hmn] at hr
        exact setattr_other r1 p mn (.mem m) r2 x hr hx
    | none => rw [hmn] at hr; cases hr; rfl
  have hl2 : lookupModel reg' x = lookupModel rmid x := by
    cases hpm : lookupModel rmid p with
    | none => rw [hpm] at h2; cases h2; rfl
    | some pm =>
        rw [hpm] at h2
        simp only [pure, Except.pure, Except.ok.injEq] at h2
        subst h2
        exact lookupModel_updateModel_ne _ _ _ _ hx
  exact hl2.trans hl1

theorem foldlM_preserve_attached (p n : String) (mem : Member) :
    ∀ (l : List Member) (r r' : Registry),
      (l.foldlM (fun (r1 : Registry) (m : Member) =>
        match m.member_name with
        | some mn => setattr_upper r1 p mn (.mem m)
        | none => pure r1) r = .ok r') →
      (∀ x ∈ l, x.id ≠ mem.id) →
      Attached r p n mem → Attached r' p n mem
  | [], r, r', h, _, ha => by
      simp only [List.foldlM_nil] at h
      cases h
      exact ha
  | m :: rest, r, r', h, hids, ha => by
      rw [List.foldlM_cons] at h
      obtain ⟨rmid, h1, h2⟩ := except_bind_ok _ _ _ h
      have ha2 : Attached rmid p n mem := by
        cases hmn : m.member_name with
        | some mn =>
            rw [hmn] at h1
            exact setattr_mem_attached_preserve r p mn m rmid n mem h1 ha
              (hids m (List.mem_cons_self _ _))
        | none => rw [hmn] at h1; cases h1; exact ha
      exact foldlM_preserve_attached p n mem rest rmid r' h2
        (fun x hx => hids x (List.mem_cons_of_mem _ hx)) ha2

theorem propagate_to_attaches (reg : Registry) (c p : String)
    (reg' : Registry) (h : propagate_to reg c p = .ok reg')
    (mcls : Model) (hm : lookupModel reg c = some mcls)
    (hnodup : ((all_members mcls).map Member.id).Nodup)
    (mem : Member) (n : String) (hmm : mem ∈ all_members mcls)
    (hname : mem.member_name = some n) : Attached reg' p n mem := by
  unfold propagate_to at h
  obtain ⟨rmid, h1, h2⟩ := except_bind_ok _ _ _ h
  have h1' : (all_members mcls).foldlM (fun (r1 : Registry) (m : Member) =>
      match m.member_name with
      | some mn => setattr_upper r1 p mn (.mem m)
      | none => pure r1) reg = .ok rmid := by
    rw [hm] at h1
    exact h1
  obtain ⟨l1, l2, hsplit⟩ := List.append_of_mem hmm
  rw [hsplit] at h1' hnodup
  have hl2ids : ∀ x ∈ l2, x.id ≠ mem.id := by
    intro x hx
    rw [List.map_append, List.map_cons] at hnodup
    have h3 := (List.nodup_append.mp hnodup).2.1
    have h4 := (List.nodup_cons.mp h3).1
    intro hc
    exact h4 (hc ▸ List.mem_map_of_mem Member.id hx)
  rw [List.foldlM_append] at h1'
  obtain ⟨rA, hA1, hA2⟩ := except_bind_ok _ _ _ h1'
  rw [List.foldlM_cons] at hA2
  obtain ⟨rB, hB1, hB2⟩ := except_bind_ok _ _ _ hA2
  have hB1' : setattr_upper rA p n (.mem mem) = .ok rB := by
    rw [hname] at hB1
    exact hB1
  have hatt : Attached rB p n mem := setattr_mem_attach rA p n mem rB hB1' hname
  have hatt2 : Attached rmid p n mem :=
    foldlM_preserve_attached p n mem l2 rB rmid hB2 hl2ids hatt
  cases hpm : lookupModel rmid p with
  | none => rw [hpm] at h2; cases h2; exact hatt2
  | some pm =>
      rw [hpm] at h2
      simp only [pure, Except.pure, Except.ok.injEq] at h2
      subst h2
      obtain ⟨md, hmd, hx1, hx2⟩ := hatt2
      have hmdpm : md = pm := by
        rw [hpm] at hmd
        exact (Option.some_inj.mp hmd).symm
      subst hmdpm
      exact ⟨_, lookupModel_updateModel_self _ _ _, hx1, hx2⟩

theorem populate_preserves_other (reg : Registry) (c : String)
    (reg' : Registry) (x : String) (h : populate_ancestors reg c = .ok reg')
    (hx : x ∉ base_chain reg c) :
    lookupModel reg' x = lookupModel reg x := by
  unfold populate_ancestors at h
  refine foldlM_preserve_lookup _ x _ reg reg' ?_ h
  intro r1 p r2 hp hr
  exact propagate_to_other r1 c p r2 x hr (fun hc => hx (hc ▸ hp))

theorem populate_attaches (reg : Registry) (c : String) (reg' : Registry)
    (h : populate_ancestors reg c = .ok reg') (A : String)
    (hA : A ∈ base_chain reg c) (hchainnd : (base_chain reg c).Nodup)
    (hcnot : c ∉ base_chain reg c)
    (mcls : Model) (hm : lookupModel reg c = some mcls)
    (hnodup : ((all_members mcls).map Member.id).Nodup)
    (mem : Member) (n : String) (hmm : mem ∈ all_members mcls)
    (hname : mem.member_name = some n) : Attached reg' A n mem := by
  unfold populate_ancestors at h
  obtain ⟨l1, l2, hsplit⟩ := List.append_of_mem hA
  rw [hsplit] at h hchainnd hcnot
  rw [List.foldlM_append] at h
  obtain ⟨rA, h1, h2⟩ := except_bind_ok _ _ _ h
  rw [List.foldlM_cons] at h2
  obtain ⟨rB, hB1, hB2⟩ := except_bind_ok _ _ _ h2
  have hc1 : lookupModel rA c = lookupModel reg c := by
    refine foldlM_preserve_lookup _ c l1 reg rA ?_ h1
    intro r1 p r2 hp hr
    refine propagate_to_other r1 c p r2 c hr ?_
    intro hc
    exact hcnot (List.mem_append.mpr (Or.inl (hc ▸ hp)))
  have hmcA : lookupModel rA c = some mcls := hc1.trans hm
  have hatt : Attached rB A n mem :=
    propagate_to_attaches rA c A rB hB1 mcls hmcA hnodup mem n hmm hname
  have hAl2 : A ∉ l2 := by
    have h3 := (List.nodup_append.mp hchainnd).2.1
    exact (List.nodup_cons.mp h3).1
  have hpres : lookupModel reg' A = lookupModel rB A := by
    refine foldlM_preserve_lookup _ A l2 rB reg' ?_ hB2
    intro r1 p r2 hp hr
    exact propagate_to_other r1 c p r2 A hr (fun hc => hAl2 (hc ▸ hp))
  exact attached_congr rB reg' A n mem hpres hatt

theorem body_fold_facts :
    ∀ (items : List (String × Decl)) (reg : Registry) (Dn : String)
      (reg' : Registry) (md : Model),
      (items.foldlM (fun (r : Registry) (p : String × Decl) =>
        setattr_upper r Dn p.1 p.2) reg = .ok reg') →
      (∀ p ∈ items, ∃ v, p.2 = Decl.raw v) →
      lookupModel reg Dn = some md →
      (∀ q ∈ md.by_id, q.1 < reg.next_id ∧ q.2.id = q.1) →
      ((md.by_id.map (fun q => q.1)).Nodup) →
      ∃ md', lookupModel reg' Dn = some md'
        ∧ reg.next_id ≤ reg'.next_id
        ∧ md'.name = md.name ∧ md'.base = md.base
        ∧ md'.field_names = md.field_names
        ∧ (∀ x, x ≠ Dn → lookupModel reg' x = lookupModel reg x)
        ∧ (∀ q ∈ md'.by_id, q.1 < reg'.next_id ∧ q.2.id = q.1)
        ∧ ((md'.by_id.map (fun q => q.1)).Nodup)
        ∧ (∀ q ∈ md'.by_id, q ∈ md.by_id ∨ (q.2.cls = Dn ∧ reg.next_id ≤ q.1))
        ∧ (∀ k mem, dlookup md'.by_member_name k = some mem →
             dlookup md.by_member_name k = some mem
             ∨ (mem.cls = Dn ∧ mem.member_name = some k
                ∧ reg.next_id ≤ mem.id))
        ∧ (∀ k, dlookup md.by_member_name k = none →
             (∀ dd, (k, dd) ∉ items) → dlookup md'.by_member_name k = none)
        ∧ (∀ q ∈ md.by_id, q ∈ md'.by_id)
        ∧ (∀ k mem, dlookup md.by_member_name k = some mem →
             dlookup md'.by_member_name k = some mem)
        ∧ (∀ k v, (k, Decl.raw v) ∈ items →
             ∃ mem, dlookup md'.by_member_name k = some mem ∧ mem.cls = Dn
               ∧ mem.member_name = some k ∧ (mem.id, mem) ∈ md'.by_id)
  | [], reg, Dn, reg', md, h, _, hmd, hinv, hnd => by
      simp only [List.foldlM_nil] at h
      cases h
      refine ⟨md, hmd, le_refl _, rfl, rfl, rfl, fun x _ => rfl, hinv, hnd,
        fun q hq => Or.inl hq, fun k mem hk => Or.inl hk,
        fun k h1 _ => h1, fun q hq => hq, fun k mem hk => hk,
        fun k v hkv => absurd hkv (by simp)⟩
  | (k, d) :: rest, reg, Dn, reg', md, h, hraw, hmd, hinv, hnd => by
      obtain ⟨v, hv⟩ := hraw (k, d) (List.mem_cons_self _ _)
      simp only at hv
      subst hv
      rw [List.foldlM_cons] at h
      obtain ⟨rmid, hstep, hfold⟩ := except_bind_ok _ _ _ h
      obtain ⟨hnone, hnid, hoth, inst', hid, hcls, hmn, mdm, hlkm, hname,
        hbase, hfns, hsub, hbyid, hbmn, hlen⟩ :=
        setattr_raw_effects reg Dn k v rmid hstep md hmd
      have hfresh : ∀ p ∈ md.by_id, p.1 ≠ inst'.id := by
        intro p hp
        rw [hid]
        exact Nat.ne_of_lt (hinv p hp).1
      have inv1 : ∀ q ∈ mdm.by_id, q.1 < rmid.next_id ∧ q.2.id = q.1 := by
        intro q hq
        rw [hbyid] at hq
        rcases mem_dinsert_inv _ _ _ _ hq with he | hqm
        · subst he
          rw [hnid, hid]
          exact ⟨Nat.lt_succ_self _, rfl⟩
        · have h1 := hinv q hqm
          rw [hnid]
          exact ⟨Nat.lt_succ_of_lt h1.1, h1.2⟩
      have inv2 : (mdm.by_id.map (fun q => q.1)).Nodup := by
        rw [hbyid]
        show ((dinsert md.by_id inst'.id inst').map (fun q => q.1)).Nodup
        rw [dinsert_append_fresh md.by_id inst'.id inst' hfresh,
          List.map_append]
        rw [List.nodup_append]
        refine ⟨hnd, by simp, ?_⟩
        intro a ha
        rcases List.mem_map.mp ha with ⟨q, hq, hq1⟩
        simp only [List.map_cons, List.map_nil, List.mem_singleton]
        intro hc
        exact hfresh q hq (hq1.symm ▸ hc ▸ rfl)
      obtain ⟨md', hlk', hle, hname', hbase', hfns', hoth', hinv', hnd',
        hrnew, hbnew, habsent, hpid, hpbmn, hattach⟩ :=
        body_fold_facts rest rmid Dn reg' mdm hfold
          (fun p hp => hraw p (List.mem_cons_of_mem _ hp)) hlkm inv1 inv2
      refine ⟨md', hlk', ?_, hname'.trans hname, hbase'.trans hbase,
        hfns'.trans hfns, ?_, hinv', hnd', ?_, ?_, ?_, ?_, ?_, ?_⟩
      · rw [hnid] at hle
        omega
      · intro x hx
        rw [hoth' x hx, hoth x hx]
      · intro q hq
        rcases hrnew q hq with hq1 | hq2
        · rw [hbyid] at hq1
          rcases mem_dinsert_inv _ _ _ _ hq1 with he | hqm
          · subst he
            exact Or.inr ⟨hcls, by rw [hid]⟩
          · exact Or.inl hqm
        · refine Or.inr ⟨hq2.1, ?_⟩
          have := hq2.2
          rw [hnid] at this
          omega
      · intro k2 mem hk2
        rcases hbnew k2 mem hk2 with h1 | h2
        · rw [hbmn, dlookup_dinsert_inv] at h1
          by_cases hkk : k2 = k
          · rw [if_pos hkk] at h1
            refine Or.inr ⟨?_, ?_, ?_⟩
            · rw [← Option.some_inj.mp h1]; exact hcls
            · rw [← Option.some_inj.mp h1, hmn, hkk]
            · rw [← Option.some_inj.mp h1, hid]
          · rw [if_neg hkk] at h1
            exact Or.inl h1
        · refine Or.inr ⟨h2.1, h2.2.1, ?_⟩
          have := h2.2.2
          rw [hnid] at this
          omega
      · intro k2 h1 h2
        have hkk : k2 ≠ k := by
          intro hc
          exact h2 (Decl.raw v) (hc ▸ List.mem_cons_self _ _)
        refine habsent k2 ?_ ?_
        · rw [hbmn, dlookup_dinsert_ne _ _ _ _ hkk]
          exact h1
        · intro dd hdd
          exact h2 dd (List.mem_cons_of_mem _ hdd)
      · rintro ⟨qk, qv⟩ hq
        refine hpid (qk, qv) ?_
        rw [hbyid]
        exact mem_dinsert_of_ne _ _ _ _ _ hq (hfresh (qk, qv) hq)
      · intro k2 mem hk2
        have hkk : k2 ≠ k := by
          intro hc
          rw [hc, hnone] at hk2
          exact absurd hk2 (by simp)
        refine hpbmn k2 mem ?_
        rw [hbmn, dlookup_dinsert_ne _ _ _ _ hkk]
        exact hk2
      · intro k2 v2 hkv
        rcases List.mem_cons.mp hkv with he | hm
        · have hk2 : k2 = k := congrArg Prod.fst he
          subst hk2
          refine ⟨inst', ?_, hcls, hmn, ?_⟩
          · refine hpbmn k2 inst' ?_
            rw [hbmn]
            exact dlookup_dinsert _ _ _
          · refine hpid (inst'.id, inst') ?_
            rw [hbyid]
            exact mem_dinsert_self _ _ _
        · exact hattach k2 v2 hm

theorem define_model_ok_inversion (reg : Registry) (D : String)
    (base : Option String) (fns : Option (List String))
    (body : List (String × Decl)) (reg' : Registry)
    (Hok : define_model reg D base fns body = .ok reg') :
    ∃ reg2, ((raw_members_of body).foldlM
        (fun (r : Registry) (p : String × Decl) =>
          setattr_upper r D p.1 p.2)
        (updateModel reg D
          (initial_model D base (resolve_field_names reg base fns)))
        = .ok reg2)
      ∧ populate_ancestors reg2 D = .ok reg' := by
  unfold define_model at Hok
  exact except_bind_ok _ _ _ Hok

theorem base_chain_congr (r1 r2 : Registry) (h : regShapeEq r1 r2)
    (n : String) : base_chain r1 n = base_chain r2 n := by
  unfold base_chain
  have hn := h.2 n
  unfold shapeOf at hn
  cases h1 : lookupModel r1 n with
  | none =>
      cases h2 : lookupModel r2 n with
      | none => rfl
      | some m2 => rw [h1, h2] at hn; simp at hn
  | some m1 =>
      cases h2 : lookupModel r2 n with
      | none => rw [h1, h2] at hn; simp at hn
      | some m2 =>
          rw [h1, h2] at hn
          simp only [Option.map_some', Option.some_inj, Prod.mk.injEq] at hn
          show base_chain_aux r1.models.length r1 m1.base
            = base_chain_aux r2.models.length r2 m2.base
          rw [h.1, hn.2.1]
          exact base_chain_aux_congr r1 r2 h.2 r2.models.length m2.base

/-- Witness for the amended C8: a duplicated X in one body equals the body
keeping only the second X, and re-assigning DOG on the constructed A raises
the TypeError. -/
theorem c8_witness :
    define_model reg0 "M2" none (some ["a"])
        [("X", Decl.raw (.vint 1)), ("X", Decl.raw (.vint 2)),
         ("Y", Decl.raw (.vint 3))]
      = define_model reg0 "M2" none (some ["a"])
        [("X", Decl.raw (.vint 2)), ("Y", Decl.raw (.vint 3))]
    ∧ setattr_upper regA "A" "DOG" (Decl.raw (.vint 5))
      = .error (.typeError ("A" ++ "." ++ "DOG"
          ++ " already exists with value " ++ reprMemberShort memDOG)) :=
  ⟨c8_amended.1 reg0 "M2" none (some ["a"]) "X" (Decl.raw (.vint 1))
      (Decl.raw (.vint 2)) [("Y", Decl.raw (.vint 3))],
   c8_amended.2 regA "A" "DOG" (Decl.raw (.vint 5)) modelA memDOG rfl rfl⟩

/-- Claim C1 (propagation invariant): for a collection D whose construction
completes, every named member declared in D is contained in the member set
of every ancestor collection A up the chain (attached under its declaration
name and yielded by A.members.all()), while the member's owning-collection
identity stays D — the very member record carrying cls = D is what A
stores. -/
theorem c1_propagation (reg : Registry) (D : String) (base : Option String)
    (fns : Option (List String)) (body : List (String × Decl))
    (reg' : Registry) (A n : String) (v : Value)
    (Hok : define_model reg D base fns body = .ok reg')
    (Hraw : ∀ p ∈ body, ∃ w, p.2 = Decl.raw w)
    (HA : A ∈ base_chain reg' D)
    (Hnd : (base_chain reg' D).Nodup)
    (HD : D ∉ base_chain reg' D)
    (Hdecl : (n, Decl.raw v) ∈ raw_members_of body) :
    ∃ mem mD mA,
      lookupModel reg' D = some mD
      ∧ dlookup mD.by_member_name n = some mem
      ∧ mem.cls = D ∧ mem.member_name = some n
      ∧ lookupModel reg' A = some mA
      ∧ dlookup mA.by_member_name n = some mem
      ∧ mem ∈ all_members mA := by
  obtain ⟨reg2, hfold, hpop⟩ :=
    define_model_ok_inversion reg D base fns body reg' Hok
  have hraw2 : ∀ p ∈ raw_members_of body, ∃ w, p.2 = Decl.raw w := by
    intro p hp
    exact Hraw p (mem_class_attrs body p (List.mem_of_mem_filter hp))
  have hlk1 : lookupModel
      (updateModel reg D
        (initial_model D base (resolve_field_names reg base fns))) D
      = some (initial_model D base (resolve_field_names reg base fns)) :=
    lookupModel_updateModel_self _ _ _
  obtain ⟨mD, hlkD2, _, hnameD, hbaseD, hfnsD, _, hinvD, hndD, _, _, _, _,
    _, hattach⟩ :=
    body_fold_facts (raw_members_of body) _ D reg2 _ hfold hraw2 hlk1
      (by simp [initial_model]) (by simp [initial_model])
  obtain ⟨mem, hbmnD, hclsD, hmnD, hbyidD⟩ := hattach n v Hdecl
  have hshape : regShapeEq reg' reg2 := populate_shapeEq reg2 D reg' hpop
  have hchain : base_chain reg' D = base_chain reg2 D :=
    base_chain_congr reg' reg2 hshape D
  rw [hchain] at HA Hnd HD
  have hidsnd : ((all_members mD).map Member.id).Nodup := by
    unfold all_members
    rw [List.map_map]
    have heq : mD.by_id.map (Member.id ∘ fun p => p.2)
        = mD.by_id.map (fun q => q.1) :=
      List.map_congr_left (fun q hq => (hinvD q hq).2)
    rw [heq]
    exact hndD
  have hmemD : mem ∈ all_members mD :=
    List.mem_map_of_mem (fun p => p.2) hbyidD
  have hattA : Attached reg' A n mem :=
    populate_attaches reg2 D reg' hpop A HA Hnd HD mD hlkD2 hidsnd
      mem n hmemD hmnD
  have hlkD' : lookupModel reg' D = some mD :=
    (populate_preserves_other reg2 D reg' D hpop HD).trans hlkD2
  obtain ⟨mA, hlkA, hbmnA, hbyidA⟩ := hattA
  exact ⟨mem, mD, mA, hlkD', hbmnD, hclsD, hmnD, hlkA, hbmnA,
    List.mem_map_of_mem (fun p => p.2) hbyidA⟩

/-- Witness for C1 on the example hierarchy: after B(A) declares EAGLE,
the member is attached on A under EAGLE, appears in A.members.all(), and
still carries owning class B. -/
theorem c1_witness :
    ∃ mem mD mA,
      lookupModel regAB "B" = some mD
      ∧ dlookup mD.by_member_name "EAGLE" = some mem
      ∧ mem.cls = "B" ∧ mem.member_name = some "EAGLE"
      ∧ lookupModel regAB "A" = some mA
      ∧ dlookup mA.by_member_name "EAGLE" = some mem
      ∧ mem ∈ all_members mA :=
  c1_propagation regA "B" (some "A") none bodyB regAB "A" "EAGLE"
    (.vtuple [.vstr "Eagle", .vbool true]) rfl
    (by
      intro p hp
      rw [List.mem_singleton.mp hp]
      exact ⟨_, rfl⟩)
    (by decide) (by decide) (by decide) (by decide)

/-- Claim C6 (non-inheritance invariant): a sub-collection B of A never
contains a member declared only in A — all of B's own members are fresh
instances owned by B — and accessing an inherited member's uppercase name
on B fails with AttributeError instead of resolving through ordinary class
inheritance. -/
theorem c6_non_inheritance (reg : Registry) (B A : String)
    (fns : Option (List String)) (body : List (String × Decl))
    (reg' : Registry) (mA : Model)
    (Hok : define_model reg B (some A) fns body = .ok reg')
    (Hraw : ∀ p ∈ body, ∃ w, p.2 = Decl.raw w)
    (HB : B ∉ base_chain reg' B)
    (HmA : lookupModel reg A = some mA)
    (HAids : ∀ mem ∈ all_members mA, mem.id < reg.next_id) :
    ∃ mB, lookupModel reg' B = some mB
      ∧ (∀ mem ∈ all_members mB, mem.cls = B ∧ reg.next_id ≤ mem.id)
      ∧ (∀ mem ∈ all_members mA, mem ∉ all_members mB)
      ∧ (∀ x, (∀ dd, (x, dd) ∉ body) →
          class_getattr_upper mB x = .error (.attributeError
            ("\x27" ++ mB.name ++ "\x27 model does not contain member \x27"
              ++ x ++ "\x27"))) := by
  obtain ⟨reg2, hfold, hpop⟩ :=
    define_model_ok_inversion reg B (some A) fns body reg' Hok
  have hraw2 : ∀ p ∈ raw_members_of body, ∃ w, p.2 = Decl.raw w := by
    intro p hp
    exact Hraw p (mem_class_attrs body p (List.mem_of_mem_filter hp))
  have hlk1 : lookupModel
      (updateModel reg B
        (initial_model B (some A) (resolve_field_names reg (some A) fns))) B
      = some (initial_model B (some A) (resolve_field_names reg (some A) fns)) :=
    lookupModel_updateModel_self _ _ _
  obtain ⟨mB, hlkB2, _, hnameB, _, _, _, hinvB, _, hrnew, _, habsent, _,
    _, _⟩ :=
    body_fold_facts (raw_members_of body) _ B reg2 _ hfold hraw2 hlk1
      (by simp [initial_model]) (by simp [initial_model])
  have hshape : regShapeEq reg' reg2 := populate_shapeEq reg2 B reg' hpop
  have hchain : base_chain reg' B = base_chain reg2 B :=
    base_chain_congr reg' reg2 hshape B
  rw [hchain] at HB
  have hlkB' : lookupModel reg' B = some mB :=
    (populate_preserves_other reg2 B reg' B hpop HB).trans hlkB2
  have hfreshmem : ∀ mem ∈ all_members mB, mem.cls = B
      ∧ reg.next_id ≤ mem.id := by
    intro mem hmem
    obtain ⟨q, hq, hq2⟩ := List.mem_map.mp hmem
    rcases hrnew q hq with h1 | h2
    · exact absurd h1 (by simp [initial_model])
    · have hkey : q.2.id = q.1 := (hinvB q hq).2
      refine ⟨hq2 ▸ h2.1, ?_⟩
      rw [← hq2, hkey]
      exact h2.2
  refine ⟨mB, hlkB', hfreshmem, ?_, ?_⟩
  · intro mem hmemA hmemB
    have h1 := HAids mem hmemA
    have h2 := (hfreshmem mem hmemB).2
    omega
  · intro x hx
    have hxn : ∀ dd, (x, dd) ∉ raw_members_of body := by
      intro dd hdd
      exact hx dd (mem_class_attrs body (x, dd) (List.mem_of_mem_filter hdd))
    have hb : dlookup mB.by_member_name x = none :=
      habsent x (by simp [initial_model, dlookup]) hxn
    unfold class_getattr_upper
    rw [hb]

/-- Witness for C6: B contains only EAGLE (owned by B, with a fresh id),
neither DOG nor BIRD leaks into B.members.all(), and B.DOG raises the
AttributeError. -/
theorem c6_witness :
    ∃ mB, lookupModel regAB "B" = some mB
      ∧ (∀ mem ∈ all_members mB, mem.cls = "B" ∧ regA.next_id ≤ mem.id)
      ∧ (∀ mem ∈ all_members modelA, mem ∉ all_members mB)
      ∧ (∀ x, (∀ dd, (x, dd) ∉ bodyB) →
          class_getattr_upper mB x = .error (.attributeError
            ("\x27" ++ mB.name ++ "\x27 model does not contain member \x27"
              ++ x ++ "\x27"))) :=
  c6_non_inheritance regA "B" "A" none bodyB regAB modelA rfl
    (by
      intro p hp
      rw [List.mem_singleton.mp hp]
      exact ⟨_, rfl⟩)
    (by decide) rfl (by decide)


end StaticModelCore
